import Mathlib

/-!
# elroi `lib/grid.js`: y-axis labels, duplicate detection, number formatting

A shallow embedding of the pure parts of `grid.js`:

* `containsDuplicateLabels` (lines 284-296),
* `commaFormat` (lines 301-333) with the regular expression `/(\d+)(\d{3})/`,
  `String.prototype.replace` and its `$` substitution patterns,
* `getYLabels` (lines 132-149),
* the duplicate-avoidance loop and the coordinates of `drawYLabels`
  (lines 191-203) and `drawGrid` (lines 49-56).

JavaScript strings are lists of characters.  The numeric functions are embedded
twice.  The first embedding takes numbers as exact rationals and `toFixed` as
exact fixed-point rounding (ties away from zero, as ECMAScript prescribes).
The second one, in the namespace `Platform`, follows the same source lines on
a number system given as a parameter: rounding of every arithmetic result and
of every decimal literal to binary64, the `RangeError` of `toFixed` above 100
digits, and its exponent notation from `1e21` on; the results there say how a
computation ends (a value, the `RangeError`, the fuel used up, or a number
that is not finite).  Loops that need not terminate take a fuel argument.
-/

namespace Elroi

/-- A JavaScript string, as the list of its characters. -/
abbrev JSString := List Char

/-! ## Decimal digits -/

/-- The ten decimal digits, in order. -/
def digitChars : List Char := ['0', '1', '2', '3', '4', '5', '6', '7', '8', '9']

/-- The regular-expression class `\d`: one of the characters `0` to `9`. -/
def isDigit (c : Char) : Bool := decide (c ∈ digitChars)

/-- The character of a digit value below ten. -/
def digitChar (d : Nat) : Char := digitChars.getD d '0'

/-- The value of a digit character. -/
def digitVal (c : Char) : Nat := digitChars.indexOf c

/-- Digits of `n`, least significant digit produced first and put in front of
what was produced before; the first argument bounds the number of digits. -/
def digitsFrom : Nat → Nat → JSString → JSString
  | 0, _, acc => acc
  | fuel + 1, n, acc =>
    if n < 10 then digitChar n :: acc
    else digitsFrom fuel (n / 10) (digitChar (n % 10) :: acc)

/-- The decimal representation of a natural number (`"0"` for zero). -/
def natStr (n : Nat) : JSString := digitsFrom (n + 1) n []

/-- The number written by a string of decimal digits. -/
def digitsNat (s : JSString) : Nat := s.foldl (fun acc c => 10 * acc + digitVal c) 0

/-- The result of `Number::toString` on an integer value (the value `-0`
prints as `"0"`). -/
def intStr (z : Int) : JSString :=
  if z < 0 then '-' :: natStr z.natAbs else natStr z.natAbs

/-! ## containsDuplicateLabels -/

/-- The inner loop `for (j = i+1; j < n; j++) if (arr[i] === arr[j]) return true`,
where `x` is `arr[i]` and the list holds `arr[i+1 .. n-1]`. -/
def innerScan (x : JSString) : List JSString → Bool
  | [] => false
  | y :: ys => if x = y then true else innerScan x ys

/-- The function `containsDuplicateLabels(arr)`: the outer loop takes `arr[i]`
for ascending `i`, runs the inner loop over the later elements and
returns `true` at the first equal pair; `false` after the last `i`. -/
def containsDuplicateLabels : List JSString → Bool
  | [] => false
  | x :: xs => if innerScan x xs then true else containsDuplicateLabels xs

/-! ## Number.prototype.toFixed, Math.round, parseFloat -/

/-- The integer `n` of `toFixed`: the one nearest to `|x| * 10^p`, the larger one on
a tie. -/
def scaledNearest (p : Nat) (x : ℚ) : Nat :=
  (⌊(if x < 0 then -x else x) * 10 ^ p + 1 / 2⌋).toNat

/-- The digits `m` of `toFixed` padded with zeros on the left to `p + 1` characters
when they are at most `p`. -/
def padZeros (p : Nat) (m : JSString) : JSString :=
  if m.length ≤ p then List.replicate (p + 1 - m.length) '0' ++ m else m

/-- The text of `toFixed` after the sign: for `p ≠ 0` the padded digits with a `.`
before the last `p` of them. -/
def pointed (p : Nat) (m : JSString) : JSString :=
  if p = 0 then m
  else (padZeros p m).take ((padZeros p m).length - p) ++
    '.' :: (padZeros p m).drop ((padZeros p m).length - p)

/-- The method `x.toFixed(p)` for a finite `x`: the sign is split off, `n` is the
integer nearest to `|x| * 10^p` (the larger one on a tie), its digits are
padded with zeros on the left to `p + 1` characters and a `.` is put before
the last `p` characters.  This is the fixed-point text; the check of the digit
count and the exponent notation are in `Platform.toFixed`. -/
def toFixed (p : Nat) (x : ℚ) : JSString :=
  (if x < 0 then ['-'] else []) ++ pointed p (natStr (scaledNearest p x))

/-- The function `Math.round(x)`: the integer nearest to `x`, the larger one on a tie. -/
def mathRound (x : ℚ) : Int := ⌊x + 1 / 2⌋

/-- White space skipped by `parseFloat` at the start of its argument. -/
def isWhiteSpace (c : Char) : Bool :=
  decide (c ∈ [' ', '\t', '\n', '\r', Char.ofNat 11, Char.ofNat 12, Char.ofNat 160])

/-- The exponent part read by `parseFloat`: `e` or `E`, an optional sign and at
least one digit; zero when there is no such part. -/
def exponentPart (s : JSString) : Int :=
  match s with
  | [] => 0
  | c :: r =>
    if c = 'e' ∨ c = 'E' then
      match r with
      | [] => 0
      | d :: r1 =>
        if d = '-' then
          (if r1.takeWhile isDigit = [] then 0 else -((digitsNat (r1.takeWhile isDigit) : Nat) : Int))
        else if d = '+' then
          (if r1.takeWhile isDigit = [] then 0 else ((digitsNat (r1.takeWhile isDigit) : Nat) : Int))
        else
          (if r.takeWhile isDigit = [] then 0 else ((digitsNat (r.takeWhile isDigit) : Nat) : Int))
    else 0

/-- The unsigned decimal literal at the start of a string: integer digits, an
optional `.` with fraction digits, an optional exponent.  The result is
`none` when there is no digit at all. -/
def unsignedLiteral (s : JSString) : Option ℚ :=
  let ip := s.takeWhile isDigit
  let r := s.dropWhile isDigit
  let fp : JSString := match r with
    | [] => []
    | c :: r1 => if c = '.' then r1.takeWhile isDigit else []
  let r2 : JSString := match r with
    | [] => []
    | c :: r1 => if c = '.' then r1.dropWhile isDigit else r
  if ip = [] ∧ fp = [] then none
  else some ((digitsNat (ip ++ fp) : ℚ) / 10 ^ fp.length * 10 ^ exponentPart r2)

/-- The function `parseFloat(s)` on exact rationals: leading white space is skipped, then
the longest prefix that is a signed decimal literal is read.  The result is `none`
when the JavaScript result is not a finite number (`NaN`, or the literal
`Infinity`).  The rounding to binary64 is in `Platform.parseFloat`. -/
def parseFloat (s : JSString) : Option ℚ :=
  match s.dropWhile isWhiteSpace with
  | [] => none
  | c :: r =>
    if c = '-' then (unsignedLiteral r).map (fun q => -q)
    else if c = '+' then unsignedLiteral r
    else unsignedLiteral (c :: r)

/-! ## The regular expression `/(\d+)(\d{3})/` and `replace` -/

/-- A successful match of `/(\d+)(\d{3})/`: the text before the match, the
two captures and the text after the match. -/
structure RegexMatch where
  before : JSString
  group1 : JSString
  group2 : JSString
  after : JSString
deriving DecidableEq

/-- Backtracking of the greedy `\d+` at a fixed start position: with `m + 1`
digits taken for the first group, the second group needs three digits
right after them; when they are not there one digit is given back. -/
def backtrack (s : JSString) : Nat → Option (JSString × JSString × JSString)
  | 0 => none
  | m + 1 =>
    if ((s.drop (m + 1)).take 3).length = 3 ∧ ((s.drop (m + 1)).take 3).all isDigit = true then
      some (s.take (m + 1), (s.drop (m + 1)).take 3, s.drop (m + 1 + 3))
    else backtrack s m

/-- A match attempt at the start of `s`: `\d+` first takes the whole run of digits. -/
def matchAt (s : JSString) : Option (JSString × JSString × JSString) :=
  backtrack s (s.takeWhile isDigit).length

/-- The leftmost match of `/(\d+)(\d{3})/` in `s`: start positions are tried from left
to right. -/
def rgxExec : JSString → Option RegexMatch
  | [] => none
  | c :: cs =>
    match matchAt (c :: cs) with
    | some (g1, g2, rest) => some ⟨[], g1, g2, rest⟩
    | none => (rgxExec cs).map fun m => ⟨c :: m.before, m.group1, m.group2, m.after⟩

/-- The capture a one- or two-digit reference stands for; the expression has two
capture groups. -/
def capture (m : RegexMatch) (index : Nat) : Option JSString :=
  if index = 1 then some m.group1 else if index = 2 then some m.group2 else none

/-- The abstract operation `GetSubstitution` of ECMAScript on a replacement template:
`$$` gives `$`, `$&` the match, the dollar-backtick pattern the text before
it, the dollar-apostrophe pattern the text after it, `$n` and `$nn` a capture when
there is one with that number; everything else is copied.  The first
argument bounds the number of steps; the length of the template is enough. -/
def getSubstitutionAux (m : RegexMatch) : Nat → JSString → JSString
  | 0, _ => []
  | _ + 1, [] => []
  | k + 1, c :: r =>
    if c ≠ '$' then c :: getSubstitutionAux m k r
    else
      match r with
      | [] => ['$']
      | d :: r1 =>
        if d = '$' then '$' :: getSubstitutionAux m k r1
        else if d = '&' then m.group1 ++ m.group2 ++ getSubstitutionAux m k r1
        else if d = Char.ofNat 96 then m.before ++ getSubstitutionAux m k r1
        else if d = Char.ofNat 39 then m.after ++ getSubstitutionAux m k r1
        else if isDigit d then
          match r1 with
          | [] =>
            (match capture m (digitVal d) with
              | some cap => cap
              | none => ['$', d])
          | e :: r2 =>
            if isDigit e ∧ 10 * digitVal d + digitVal e ≤ 2 then
              (match capture m (10 * digitVal d + digitVal e) with
                | some cap => cap ++ getSubstitutionAux m k r2
                | none => '$' :: d :: e :: getSubstitutionAux m k r2)
            else
              (match capture m (digitVal d) with
                | some cap => cap ++ getSubstitutionAux m k (e :: r2)
                | none => '$' :: d :: getSubstitutionAux m k (e :: r2))
        else '$' :: getSubstitutionAux m k (d :: r1)

/-- The substitution for a whole replacement template. -/
def getSubstitution (m : RegexMatch) (template : JSString) : JSString :=
  getSubstitutionAux m template.length template

/-- The call `s.replace(rgx, template)` at a match `m` of `s` (no global flag: only
this first match is replaced). -/
def replaceMatch (m : RegexMatch) (template : JSString) : JSString :=
  m.before ++ getSubstitution m template ++ m.after

/-- The loop `while (rgx.test(preDecimal)) preDecimal = preDecimal.replace(rgx,
'$1' + thousandsSeparator + '$2')`; `none` when the fuel runs out. -/
def groupLoop (thousandsSeparator : JSString) : Nat → JSString → Option JSString
  | 0, _ => none
  | fuel + 1, preDecimal =>
    match rgxExec preDecimal with
    | none => some preDecimal
    | some m =>
      groupLoop thousandsSeparator fuel
        (replaceMatch m (['$', '1'] ++ thousandsSeparator ++ ['$', '2']))

/-- The call `s.split(sep)` for a separator of one character. -/
def split (sep : Char) : JSString → List JSString
  | [] => [[]]
  | c :: cs =>
    if c = sep then [] :: split sep cs
    else
      match split sep cs with
      | [] => [[c]]
      | s :: ss => (c :: s) :: ss

/-! ## commaFormat -/

/-- The `precision` argument: a number of digits, or the policy `'round'`. -/
inductive Precision where
  | digits (p : Nat)
  | round
deriving DecidableEq

/-- The text `num` holds after `if (precision) {...}` and `num += ''`: untouched
when `precision` is `0` (falsy), otherwise parsed and rounded or fixed.
The result is `none` when `parseFloat` gives no finite number. -/
def reparse (num : JSString) : Precision → Option JSString
  | Precision.digits 0 => some num
  | Precision.digits (p + 1) => (parseFloat num).map (toFixed (p + 1))
  | Precision.round => (parseFloat num).map fun q => intStr (mathRound q)

/-- The function `commaFormat(num, precision, thousandsSeparator, decimalSeparator)`
on a string `num`.  The fuel bounds the iterations of the grouping loop. -/
def commaFormat (fuel : Nat) (num : JSString) (precision : Precision)
    (thousandsSeparator decimalSeparator : JSString) : Option JSString :=
  let thousandsSeparator : JSString := if thousandsSeparator = [] then [' '] else thousandsSeparator
  let decimalSeparator : JSString := if decimalSeparator = [] then [' '] else decimalSeparator
  if num = ['0'] then some ['0']
  else
    match reparse num precision with
    | none => none
    | some num =>
      let splitNum := split '.' num
      let preDecimal : JSString := splitNum.headD []
      let postDecimal : JSString :=
        match splitNum.tail.head? with
        | some (c :: cs) => decimalSeparator ++ c :: cs
        | _ => []
      (groupLoop thousandsSeparator fuel preDecimal).map fun grouped => grouped ++ postDecimal

/-! ## getYLabels -/

/-- The value interpolated for tick `i`, in exact arithmetic:
`i / (numYLabels - 1) * (maxVal - minVal) + minVal`.  The rounding of every operation
is in `Platform.tickValue`. -/
def tickValue (numYLabels : Nat) (maxVal minVal : ℚ) (i : Nat) : ℚ :=
  (i : ℚ) / ((numYLabels : ℚ) - 1) * (maxVal - minVal) + minVal

/-- The label of one value: `'0'` for zero, otherwise `toFixed(precision)`, and
`'0'` again when that text is `'-0'`. -/
def labelOf (precision : Nat) (yLabel : ℚ) : JSString :=
  let yLabel : JSString := if yLabel = 0 then ['0'] else toFixed precision yLabel
  if yLabel = ['-', '0'] then ['0'] else yLabel

/-- The loop of `getYLabels` from index `i` on, with `k` iterations left. -/
def getYLabelsFrom (numYLabels : Nat) (maxVal minVal : ℚ) (precision : Nat) :
    Nat → Nat → List JSString
  | 0, _ => []
  | k + 1, i =>
    labelOf precision (tickValue numYLabels maxVal minVal i) ::
      getYLabelsFrom numYLabels maxVal minVal precision k (i + 1)

/-- The function `getYLabels(maxVal, minVal, precision)` for a graph with
`graph.options.grid.numYLabels = numYLabels`. -/
def getYLabels (numYLabels : Nat) (maxVal minVal : ℚ) (precision : Nat) : List JSString :=
  getYLabelsFrom numYLabels maxVal minVal precision numYLabels 0

/-! ## drawYLabels and drawGrid -/

/-- The loop `while (containsDuplicateLabels(yLabels)) { precision++; yLabels =
getYLabels(maxVal, minVal, precision); }` entered with `yLabels =
getYLabels(maxVal, minVal, precision)`: the precision and the labels on exit,
`none` when the fuel runs out. -/
def escalate (numYLabels : Nat) (maxVal minVal : ℚ) : Nat → Nat → Option (Nat × List JSString)
  | 0, _ => none
  | fuel + 1, precision =>
    if containsDuplicateLabels (getYLabels numYLabels maxVal minVal precision) = true then
      escalate numYLabels maxVal minVal fuel (precision + 1)
    else some (precision, getYLabels numYLabels maxVal minVal precision)

/-- The labels `drawYLabels` shows: `commaFormat(yLabels[i], precision, thousandsSeparator,
decimalSeparator)` for the labels and the precision the loop ended with
(before the label formatters of the options are applied). -/
def displayedLabels (fuel : Nat) (numYLabels : Nat) (maxVal minVal : ℚ) (precision : Nat)
    (thousandsSeparator decimalSeparator : JSString) : Option (List (Option JSString)) :=
  (escalate numYLabels maxVal minVal fuel precision).map fun r =>
    r.2.map fun yLabel =>
      commaFormat fuel yLabel (Precision.digits r.1) thousandsSeparator decimalSeparator

/-- The coordinate `y` of grid line `i` in `drawGrid`. -/
def gridLineY (height paddingTop paddingBottom : ℚ) (numYLabels i : Nat) : ℚ :=
  height - (i : ℚ) / ((numYLabels : ℚ) - 1) * (height - paddingTop - paddingBottom) -
    paddingBottom + paddingTop

/-- The coordinate `y` of label `i` in `drawYLabels`. -/
def labelY (height paddingTop paddingBottom labelLineHeight : ℚ) (numYLabels i : Nat) : ℚ :=
  height - (i : ℚ) / ((numYLabels : ℚ) - 1) * (height - paddingTop - paddingBottom) -
    paddingBottom + paddingTop - labelLineHeight

/-- The number the text `x.toFixed(p)` denotes: the integer `n` of `toFixed` over `10^p`,
with the sign of `x`. -/
def roundedValue (p : Nat) (x : ℚ) : ℚ :=
  if x < 0 then -((scaledNearest p x : ℚ) / 10 ^ p) else (scaledNearest p x : ℚ) / 10 ^ p

/-! ## The grouping described by the specification -/

/-- The grouping in the words of the specification, design note 9: "a single pass
building the grouped string from the right".  The digits are read from the
last one to the first; `k` counts the digits already put into the current
group, and a separator is put in front of a group of three as soon as a
further digit follows. -/
def groupPass (t : JSString) : JSString → Nat → JSString → JSString
  | [], _, acc => acc
  | c :: rest, k, acc =>
    if k = 3 then groupPass t rest 1 (c :: (t ++ acc))
    else groupPass t rest (k + 1) (c :: acc)

/-- The thousands grouping of a digit string by the single pass from the right of the
specification. -/
def groupFromRight (t : JSString) (digits : JSString) : JSString :=
  groupPass t digits.reverse 0 []

/-- The groups of a list, each preceded by the separator `t`. -/
def sepGroups (t : JSString) : List JSString → JSString
  | [] => []
  | g :: gs => t ++ g ++ sepGroups t gs

/-! ## The numbers of the platform

The definitions above take numbers as exact rationals.  The definitions of this
section follow the same source lines on a number system given as a parameter:
the rounding applied to the result of an arithmetic operation and to a decimal
literal, the digit limit of `toFixed`, and the magnitude from which `toFixed`
writes exponent notation. -/

/-- The power of two with an integer exponent. -/
def pow2 (e : Int) : ℚ :=
  if 0 ≤ e then (2 : ℚ) ^ e.toNat else 1 / (2 : ℚ) ^ (-e).toNat

/-- The number of binary digits of `n` (zero for `n = 0`); the first argument bounds the
number of halvings. -/
def bitLength : Nat → Nat → Nat
  | 0, _ => 0
  | fuel + 1, n => if n = 0 then 0 else bitLength fuel (n / 2) + 1

/-- The binary exponent of a non-zero rational: the `e` with `2^e ≤ |q| < 2^(e+1)`,
found from the bit lengths of numerator and denominator. -/
def binaryExponent (q : ℚ) : Int :=
  if pow2 ((bitLength q.num.natAbs q.num.natAbs : Int) - (bitLength q.den q.den : Int)) ≤ |q| then
    (bitLength q.num.natAbs q.num.natAbs : Int) - (bitLength q.den q.den : Int)
  else (bitLength q.num.natAbs q.num.natAbs : Int) - (bitLength q.den q.den : Int) - 1

/-- The integer nearest to `y`, the even one on a tie. -/
def roundHalfEven (y : ℚ) : Int :=
  if y - ⌊y⌋ < 1 / 2 then ⌊y⌋
  else if 1 / 2 < y - ⌊y⌋ then ⌊y⌋ + 1
  else if ⌊y⌋ % 2 = 0 then ⌊y⌋
  else ⌊y⌋ + 1

/-- Rounding to binary64 (IEEE 754 double precision, round to nearest, ties to even):
the value is rounded to a multiple of `2^(e-52)`, where `e` is its binary exponent
and at least `-1022` (subnormal numbers); `none` when the result is an infinity. -/
def f64 (q : ℚ) : Option ℚ :=
  if q = 0 then some 0
  else if pow2 1024 ≤
      (roundHalfEven (|q| / pow2 (max (binaryExponent q) (-1022) - 52)) : ℚ) *
        pow2 (max (binaryExponent q) (-1022) - 52) then none
  else if q < 0 then
    some (-((roundHalfEven (|q| / pow2 (max (binaryExponent q) (-1022) - 52)) : ℚ) *
      pow2 (max (binaryExponent q) (-1022) - 52)))
  else
    some ((roundHalfEven (|q| / pow2 (max (binaryExponent q) (-1022) - 52)) : ℚ) *
      pow2 (max (binaryExponent q) (-1022) - 52))

/-- A number system for the code. -/
structure Numbers where
  /-- The rounding of the exact result of an arithmetic operation or of a decimal
  literal; `none` when the result is not finite. -/
  round : ℚ → Option ℚ
  /-- The largest digit count `toFixed` accepts (a `RangeError` above it); `none` when
  there is no limit. -/
  maxDigits : Option Nat
  /-- The magnitude from which `toFixed` gives the text of `Number::toString` (exponent
  notation) instead of fixed-point digits; `none` when it never does. -/
  exponentFrom : Option ℚ
  /-- The text of `Number::toString` for such a magnitude; it is not modelled further. -/
  exponentText : ℚ → JSString

/-- The numbers of an ECMAScript engine: binary64 arithmetic, `toFixed` with at most 100
digits and exponent notation from `1e21` on. -/
def binary64 (exponentText : ℚ → JSString) : Numbers :=
  ⟨f64, some 100, some (10 ^ 21), exponentText⟩

/-- Exact real arithmetic with the `toFixed` of an ECMAScript engine. -/
def exactReals (exponentText : ℚ → JSString) : Numbers :=
  ⟨some, some 100, some (10 ^ 21), exponentText⟩

/-- Binary64 arithmetic with `toFixed` taken as exact fixed-point rounding without a digit
limit. -/
def binary64Unlimited : Numbers :=
  ⟨f64, none, none, fun _ => []⟩

/-- A JavaScript number: a finite value, `NaN`, or an infinity. -/
inductive JSNumber where
  | finite (q : ℚ)
  | nan
  | infinity (negative : Bool)
deriving DecidableEq

/-- How a computation ends: with a value, with the `RangeError` of `toFixed`, without
having finished within the fuel, or at a number that is not finite in the tick
arithmetic (which is not followed further). -/
inductive Outcome (α : Type) where
  | ok (a : α)
  | rangeError
  | outOfFuel
  | notFinite
deriving DecidableEq

namespace Platform

/-- The check `fractionDigits ≤ 100` of `toFixed`. -/
def digitsAllowed (N : Numbers) (p : Nat) : Bool :=
  match N.maxDigits with
  | some m => decide (p ≤ m)
  | none => true

/-- The switch of `toFixed` to `Number::toString` for a large magnitude. -/
def exponentNotation (N : Numbers) (x : ℚ) : Bool :=
  match N.exponentFrom with
  | some b => decide (b ≤ |x|)
  | none => false

/-- The method `x.toFixed(p)` for a finite `x`: a `RangeError` when `p` is above the limit, the
text of `Number::toString` from `1e21` on, and the fixed-point text otherwise. -/
def toFixed (N : Numbers) (p : Nat) (x : ℚ) : Outcome JSString :=
  if digitsAllowed N p = false then Outcome.rangeError
  else if exponentNotation N x = true then Outcome.ok (N.exponentText x)
  else Outcome.ok (Elroi.toFixed p x)

/-- The value of `i / (numYLabels - 1) * (maxVal - minVal) + minVal`, every operation
rounded; `none` when a result is not finite (`0 / 0` for `numYLabels = 1`, or an
overflow). -/
def tickValue (N : Numbers) (numYLabels : Nat) (maxVal minVal : ℚ) (i : Nat) : Option ℚ :=
  if (numYLabels : ℚ) - 1 = 0 then none
  else
    (N.round ((i : ℚ) / ((numYLabels : ℚ) - 1))).bind fun a =>
      (N.round (maxVal - minVal)).bind fun d =>
        (N.round (a * d)).bind fun m => N.round (m + minVal)

/-- The label of one value: `'0'` for zero, otherwise `toFixed(precision)`, and `'0'`
again when that text is `'-0'`. -/
def labelOf (N : Numbers) (precision : Nat) (yLabel : ℚ) : Outcome JSString :=
  if yLabel = 0 then Outcome.ok ['0']
  else
    match toFixed N precision yLabel with
    | Outcome.ok s => Outcome.ok (if s = ['-', '0'] then ['0'] else s)
    | Outcome.rangeError => Outcome.rangeError
    | Outcome.outOfFuel => Outcome.outOfFuel
    | Outcome.notFinite => Outcome.notFinite

/-- The loop of `getYLabels` from index `i` on, with `k` iterations left. -/
def getYLabelsFrom (N : Numbers) (numYLabels : Nat) (maxVal minVal : ℚ) (precision : Nat) :
    Nat → Nat → Outcome (List JSString)
  | 0, _ => Outcome.ok []
  | k + 1, i =>
    match tickValue N numYLabels maxVal minVal i with
    | none => Outcome.notFinite
    | some v =>
      match labelOf N precision v with
      | Outcome.ok s =>
        (match getYLabelsFrom N numYLabels maxVal minVal precision k (i + 1) with
          | Outcome.ok l => Outcome.ok (s :: l)
          | Outcome.rangeError => Outcome.rangeError
          | Outcome.outOfFuel => Outcome.outOfFuel
          | Outcome.notFinite => Outcome.notFinite)
      | Outcome.rangeError => Outcome.rangeError
      | Outcome.outOfFuel => Outcome.outOfFuel
      | Outcome.notFinite => Outcome.notFinite

/-- The function `getYLabels(maxVal, minVal, precision)` for a graph with
`graph.options.grid.numYLabels = numYLabels`. -/
def getYLabels (N : Numbers) (numYLabels : Nat) (maxVal minVal : ℚ) (precision : Nat) :
    Outcome (List JSString) :=
  getYLabelsFrom N numYLabels maxVal minVal precision numYLabels 0

/-- The statements `yLabels = getYLabels(maxVal, minVal, precision)` and `while
(containsDuplicateLabels(yLabels)) { precision++; yLabels = getYLabels(maxVal, minVal,
precision); }` of `drawYLabels`: the precision and the labels on exit. -/
def escalate (N : Numbers) (numYLabels : Nat) (maxVal minVal : ℚ) :
    Nat → Nat → Outcome (Nat × List JSString)
  | 0, _ => Outcome.outOfFuel
  | fuel + 1, precision =>
    match getYLabels N numYLabels maxVal minVal precision with
    | Outcome.ok yLabels =>
      if containsDuplicateLabels yLabels = true then
        escalate N numYLabels maxVal minVal fuel (precision + 1)
      else Outcome.ok (precision, yLabels)
    | Outcome.rangeError => Outcome.rangeError
    | Outcome.outOfFuel => Outcome.outOfFuel
    | Outcome.notFinite => Outcome.notFinite

/-- The characters `parseFloat` skips at the start: white space and line terminators. -/
def isStrWhiteSpace (c : Char) : Bool :=
  decide (c.toNat ∈ [9, 10, 11, 12, 13, 32, 160, 5760, 8232, 8233, 8239, 8287, 12288, 65279]) ||
    (decide (8192 ≤ c.toNat) && decide (c.toNat ≤ 8202))

/-- The literal at the start of a string, without its sign: `Infinity`, or a decimal
literal rounded to a number; `NaN` when there is neither. -/
def unsignedNumber (N : Numbers) (s : JSString) : JSNumber :=
  if ['I', 'n', 'f', 'i', 'n', 'i', 't', 'y'].isPrefixOf s = true then JSNumber.infinity false
  else
    match unsignedLiteral s with
    | none => JSNumber.nan
    | some q =>
      match N.round q with
      | some r => JSNumber.finite r
      | none => JSNumber.infinity false

/-- The sign change of a number. -/
def negate : JSNumber → JSNumber
  | JSNumber.finite q => JSNumber.finite (-q)
  | JSNumber.nan => JSNumber.nan
  | JSNumber.infinity b => JSNumber.infinity (!b)

/-- The function `parseFloat(s)`. -/
def parseFloat (N : Numbers) (s : JSString) : JSNumber :=
  match s.dropWhile isStrWhiteSpace with
  | [] => JSNumber.nan
  | c :: r =>
    if c = '-' then negate (unsignedNumber N r)
    else if c = '+' then unsignedNumber N r
    else unsignedNumber N (c :: r)

/-- The method `toFixed(p)` on any number: the digit check comes first, a number that is
not finite gives its name. -/
def numberToFixed (N : Numbers) (p : Nat) : JSNumber → Outcome JSString
  | JSNumber.finite q => toFixed N p q
  | JSNumber.nan =>
    if digitsAllowed N p = false then Outcome.rangeError else Outcome.ok ['N', 'a', 'N']
  | JSNumber.infinity b =>
    if digitsAllowed N p = false then Outcome.rangeError
    else Outcome.ok (if b then '-' :: ['I', 'n', 'f', 'i', 'n', 'i', 't', 'y']
      else ['I', 'n', 'f', 'i', 'n', 'i', 't', 'y'])

/-- The text of `Math.round(num) + ''`. -/
def roundText (N : Numbers) : JSNumber → JSString
  | JSNumber.finite q =>
    if exponentNotation N (mathRound q : ℚ) = true then N.exponentText (mathRound q : ℚ)
    else intStr (mathRound q)
  | JSNumber.nan => ['N', 'a', 'N']
  | JSNumber.infinity b =>
    if b then '-' :: ['I', 'n', 'f', 'i', 'n', 'i', 't', 'y']
    else ['I', 'n', 'f', 'i', 'n', 'i', 't', 'y']

/-- The text `num` holds after `if (precision) {...}` and `num += ''`. -/
def reparse (N : Numbers) (num : JSString) : Precision → Outcome JSString
  | Precision.digits 0 => Outcome.ok num
  | Precision.digits (p + 1) => numberToFixed N (p + 1) (parseFloat N num)
  | Precision.round => Outcome.ok (roundText N (parseFloat N num))

/-- The function `commaFormat(num, precision, thousandsSeparator, decimalSeparator)` on a
string `num`.  The fuel bounds the iterations of the grouping loop. -/
def commaFormat (N : Numbers) (fuel : Nat) (num : JSString) (precision : Precision)
    (thousandsSeparator decimalSeparator : JSString) : Outcome JSString :=
  if num = ['0'] then Outcome.ok ['0']
  else
    match reparse N num precision with
    | Outcome.ok num =>
      (match groupLoop (if thousandsSeparator = [] then [' '] else thousandsSeparator) fuel
          ((split '.' num).headD []) with
        | none => Outcome.outOfFuel
        | some grouped =>
          Outcome.ok (grouped ++
            (match (split '.' num).tail.head? with
              | some (c :: cs) => (if decimalSeparator = [] then [' '] else decimalSeparator) ++ c :: cs
              | _ => [])))
    | Outcome.rangeError => Outcome.rangeError
    | Outcome.outOfFuel => Outcome.outOfFuel
    | Outcome.notFinite => Outcome.notFinite

end Platform

/-! ## Duplicate detection: proofs -/

theorem innerScan_eq_true_iff (x : JSString) (ys : List JSString) :
    innerScan x ys = true ↔ x ∈ ys := by
  induction ys with
  | nil => simp [innerScan]
  | cons y ys ih =>
    unfold innerScan
    by_cases h : x = y
    · simp [h]
    · simp [h, ih]

theorem containsDuplicateLabels_eq_false_iff (arr : List JSString) :
    containsDuplicateLabels arr = false ↔ arr.Nodup := by
  induction arr with
  | nil => simp [containsDuplicateLabels]
  | cons x xs ih =>
    unfold containsDuplicateLabels
    by_cases h : innerScan x xs = true
    · have hx : x ∈ xs := (innerScan_eq_true_iff x xs).1 h
      simp [h, hx]
    · have hx : x ∉ xs := fun hm => h ((innerScan_eq_true_iff x xs).2 hm)
      simp [h, hx, ih]

theorem containsDuplicateLabels_eq_true_iff (arr : List JSString) :
    containsDuplicateLabels arr = true ↔ ¬ arr.Nodup := by
  rw [← containsDuplicateLabels_eq_false_iff]
  cases containsDuplicateLabels arr <;> simp

/-- C1: `containsDuplicateLabels(arr)` is `true` exactly when two positions
`i < j < arr.length` hold equal strings, `false` exactly when the strings are
pairwise distinct, the result is the same for every reordering of `arr`,
and the two examples `["1","2","2"]` and `["1","2","3"]` give `true` and `false`. -/
theorem containsDuplicateLabels_spec (arr : List JSString) :
    (containsDuplicateLabels arr = true ↔
      ∃ i j : Nat, i < j ∧ j < arr.length ∧ arr[i]? = arr[j]?) ∧
    (containsDuplicateLabels arr = false ↔ arr.Pairwise (fun a b => a ≠ b)) ∧
    (∀ arr2 : List JSString, arr.Perm arr2 →
      containsDuplicateLabels arr2 = containsDuplicateLabels arr) ∧
    containsDuplicateLabels [['1'], ['2'], ['2']] = true ∧
    containsDuplicateLabels [['1'], ['2'], ['3']] = false := by
  refine ⟨?_, ?_, ?_, by decide, by decide⟩
  · rw [containsDuplicateLabels_eq_true_iff, List.nodup_iff_getElem?_ne_getElem?]
    push_neg
    rfl
  · rw [containsDuplicateLabels_eq_false_iff]
    rfl
  · intro arr2 hperm
    cases h : containsDuplicateLabels arr with
    | false =>
      rw [containsDuplicateLabels_eq_false_iff] at h ⊢
      exact hperm.nodup_iff.1 h
    | true =>
      rw [containsDuplicateLabels_eq_true_iff] at h ⊢
      exact fun h2 => h (hperm.nodup_iff.2 h2)

/-! ## Lists of equal labels -/

theorem containsDuplicateLabels_replicate (x : JSString) (n : Nat) (hn : 2 ≤ n) :
    containsDuplicateLabels (List.replicate n x) = true := by
  obtain ⟨k, rfl⟩ : ∃ k, n = k + 2 := ⟨n - 2, by omega⟩
  simp [List.replicate_succ, containsDuplicateLabels, innerScan]

/-! ## Coordinates -/

/-- C10 as stated fails: with height 100, top padding 10, bottom padding 20, line
height 5 and two labels, the coordinates without the line-height offset are
90 and 20, not the padding bounds `H - Pb = 80` and `Pt = 10`. -/
theorem labelY_endpoints_counterexample :
    ¬ (labelY 100 10 20 5 2 0 + 5 = 100 - 20 ∧ labelY 100 10 20 5 2 (2 - 1) + 5 = 10) := by
  norm_num [labelY]

/-- C10, amended: for `numYLabels ≥ 2` label `i` is put at
`H - i/(n-1)*(H - Pt - Pb) - Pb + Pt - lineHeight`, which is the grid-line
coordinate of `drawGrid` for the same `i` minus the line height; consecutive
coordinates differ by exactly `(H - Pt - Pb)/(n-1)`; without the line-height
offset they run from `H - Pb + Pt` at `i = 0` to `2 * Pt` at `i = n - 1`. -/
theorem labelY_spec (H Pt Pb lineHeight : ℚ) (n : Nat) (hn : 2 ≤ n) :
    (∀ i : Nat, labelY H Pt Pb lineHeight n i =
      H - (i : ℚ) / ((n : ℚ) - 1) * (H - Pt - Pb) - Pb + Pt - lineHeight) ∧
    (∀ i : Nat, labelY H Pt Pb lineHeight n i = gridLineY H Pt Pb n i - lineHeight) ∧
    (∀ i : Nat, labelY H Pt Pb lineHeight n i - labelY H Pt Pb lineHeight n (i + 1) =
      (H - Pt - Pb) / ((n : ℚ) - 1)) ∧
    labelY H Pt Pb lineHeight n 0 + lineHeight = H - Pb + Pt ∧
    labelY H Pt Pb lineHeight n (n - 1) + lineHeight = 2 * Pt := by
  have hn1 : ((n : ℚ) - 1) ≠ 0 := by
    have h2 : (2 : ℚ) ≤ (n : ℚ) := by exact_mod_cast hn
    intro h0
    linarith
  refine ⟨fun i => rfl, fun i => rfl, ?_, ?_, ?_⟩
  · intro i
    simp only [labelY]
    push_cast
    field_simp
    ring
  · simp [labelY]
  · have hc : (((n - 1 : Nat) : ℚ)) = (n : ℚ) - 1 := by
      rw [Nat.cast_sub (by omega)]
      simp
    simp only [labelY, hc]
    rw [div_self hn1]
    ring

/-- Witness for C10 (amended): height 100, paddings 10 and 20, line height 5, two labels. -/
theorem labelY_spec_witness :
    (2 ≤ 2) ∧
    labelY 100 10 20 5 2 0 + 5 = 100 - 20 + 10 ∧
    labelY 100 10 20 5 2 (2 - 1) + 5 = 2 * 10 :=
  ⟨le_refl 2, (labelY_spec 100 10 20 5 2 (le_refl 2)).2.2.2⟩

/-! ## Values that round to zero -/

/-- C4, the code at the input of the claim: with precision `0` the text is not parsed
again, so `"-0.0"` is split at the point and comes back as `"-0"`, the decimal
separator (a space when it is empty) and `"0"`; the result is never `"0"`. -/
theorem commaFormat_negative_zero_text (t d : JSString) (fuel : Nat) :
    commaFormat (fuel + 1) ['-', '0', '.', '0'] (Precision.digits 0) t d =
      some (['-', '0'] ++ (if d = [] then [' '] else d) ++ ['0']) ∧
    commaFormat (fuel + 1) ['-', '0', '.', '0'] (Precision.digits 0) t d ≠ some ['0'] := by
  have h : commaFormat (fuel + 1) ['-', '0', '.', '0'] (Precision.digits 0) t d =
      some (['-', '0'] ++ (if d = [] then [' '] else d) ++ ['0']) := by
    simp [commaFormat, reparse, split, groupLoop, rgxExec, matchAt, backtrack, isDigit,
      digitChars]
  refine ⟨h, ?_⟩
  rw [h]
  simp

/-- C6, the code at a failing input: with two labels, `minVal = 0.001`,
`maxVal = 1` and precision 2 the first value is `0.001`, which rounds to zero at
two digits, and its label is `"0.00"`; with `minVal = -0.001` the label is
`"-0.00"`.  Neither is the literal `"0"`. -/
theorem getYLabels_rounds_to_zero :
    tickValue 2 1 (1 / 1000) 0 = 1 / 1000 ∧
    |tickValue 2 1 (1 / 1000) 0| < 1 / 2 * (1 / 10 ^ 2) ∧
    getYLabels 2 1 (1 / 1000) 2 = [['0', '.', '0', '0'], ['1', '.', '0', '0']] ∧
    tickValue 2 1 (-1 / 1000) 0 = -1 / 1000 ∧
    |tickValue 2 1 (-1 / 1000) 0| < 1 / 2 * (1 / 10 ^ 2) ∧
    getYLabels 2 1 (-1 / 1000) 2 = [['-', '0', '.', '0', '0'], ['1', '.', '0', '0']] := by
  have h1 : tickValue 2 1 (1 / 1000) 0 = 1 / 1000 := by norm_num [tickValue]
  have h2 : tickValue 2 1 (-1 / 1000) 0 = -1 / 1000 := by norm_num [tickValue]
  refine ⟨h1, ?_, by decide!, h2, ?_, by decide!⟩
  · rw [h1]
    norm_num [abs_of_pos]
  · rw [h2]
    norm_num [abs_of_neg]

/-- C9, the code at a failing input: with two labels, `minVal = -0.001`,
`maxVal = 0.001` and starting precision 2 the loop ends at once with the distinct
labels `"-0.00"` and `"0.00"`, and `commaFormat` turns both into `"0.00"`. -/
theorem displayedLabels_collide :
    escalate 2 (1 / 1000) (-1 / 1000) 1 2 =
      some (2, [['-', '0', '.', '0', '0'], ['0', '.', '0', '0']]) ∧
    containsDuplicateLabels [['-', '0', '.', '0', '0'], ['0', '.', '0', '0']] = false ∧
    commaFormat 1 ['-', '0', '.', '0', '0'] (Precision.digits 2) [','] ['.'] =
      some ['0', '.', '0', '0'] ∧
    commaFormat 1 ['0', '.', '0', '0'] (Precision.digits 2) [','] ['.'] =
      some ['0', '.', '0', '0'] ∧
    displayedLabels 1 2 (1 / 1000) (-1 / 1000) 2 [','] ['.'] =
      some [some ['0', '.', '0', '0'], some ['0', '.', '0', '0']] := by
  refine ⟨by decide!, by decide, by decide!, by decide!, by decide!⟩

/-! ## The regular expression on runs of digits -/

theorem isDigit_false_of_not_mem {t : JSString} (ht : ∀ c ∈ t, isDigit c = false)
    {c : Char} (hc : c ∈ t) : ¬ isDigit c = true := by
  rw [ht c hc]
  simp

theorem takeWhile_digits_append (D rest : JSString) (hD : ∀ c ∈ D, isDigit c = true)
    (hrest : ∀ c, rest.head? = some c → isDigit c = false) :
    (D ++ rest).takeWhile isDigit = D := by
  induction D with
  | nil =>
    cases rest with
    | nil => rfl
    | cons c r =>
      have h := hrest c rfl
      simp [List.takeWhile, h]
  | cons d D ih =>
    have hd : isDigit d = true := hD d (List.mem_cons_self d D)
    have ih2 := ih (fun c hc => hD c (List.mem_cons_of_mem d hc))
    simp [List.takeWhile, hd, ih2]

theorem backtrack_test_fails (D rest : JSString)
    (hrest : ∀ c, rest.head? = some c → isDigit c = false)
    (j : Nat) (hj : j ≤ D.length) (hj3 : D.length < j + 3) :
    ¬ ((((D ++ rest).drop j).take 3).length = 3 ∧
        (((D ++ rest).drop j).take 3).all isDigit = true) := by
  rw [List.drop_append_of_le_length hj]
  have hlen : (D.drop j).length < 3 := by
    rw [List.length_drop]
    omega
  generalize D.drop j = E at hlen
  intro h
  cases rest with
  | nil =>
    simp at h
    omega
  | cons c r =>
    have hc := hrest c rfl
    match E, hlen with
    | [], _ => simp [hc] at h
    | [a], _ => simp [hc] at h
    | [a, b], _ => simp [hc] at h
    | _ :: _ :: _ :: _, hl => simp at hl; omega

theorem backtrack_test_succeeds (D rest : JSString) (hD : ∀ c ∈ D, isDigit c = true)
    (j : Nat) (hj3 : j + 3 ≤ D.length) :
    ((D ++ rest).drop j).take 3 = (D.drop j).take 3 ∧
    ((D.drop j).take 3).length = 3 ∧ ((D.drop j).take 3).all isDigit = true := by
  have hj : j ≤ D.length := by omega
  rw [List.drop_append_of_le_length hj]
  have hlen : 3 ≤ (D.drop j).length := by
    rw [List.length_drop]
    omega
  refine ⟨?_, ?_, ?_⟩
  · rw [List.take_append_of_le_length hlen]
  · rw [List.length_take]
    omega
  · rw [List.all_eq_true]
    intro c hc
    exact hD c (List.mem_of_mem_drop (List.mem_of_mem_take hc))

theorem backtrack_short (D rest : JSString)
    (hrest : ∀ c, rest.head? = some c → isDigit c = false)
    (j : Nat) (hj : j ≤ D.length) (hj3 : D.length < j + 3) :
    backtrack (D ++ rest) j = backtrack (D ++ rest) (D.length - 3) := by
  induction j with
  | zero =>
    have h0 : D.length - 3 = 0 := by omega
    rw [h0]
  | succ j ih =>
    by_cases hlast : j + 1 = D.length - 3
    · rw [hlast]
    · have hfail := backtrack_test_fails D rest hrest (j + 1) hj hj3
      have hstep : backtrack (D ++ rest) (j + 1) = backtrack (D ++ rest) j := by
        simp only [backtrack]
        rw [if_neg hfail]
      rw [hstep]
      by_cases hj3b : D.length < j + 3
      · exact ih (by omega) hj3b
      · have : j = D.length - 3 := by omega
        rw [this]

theorem matchAt_digits (D rest : JSString) (hD : ∀ c ∈ D, isDigit c = true)
    (hrest : ∀ c, rest.head? = some c → isDigit c = false) :
    matchAt (D ++ rest) =
      if 4 ≤ D.length then
        some (D.take (D.length - 3), D.drop (D.length - 3), rest)
      else none := by
  unfold matchAt
  rw [takeWhile_digits_append D rest hD hrest]
  rw [backtrack_short D rest hrest D.length (le_refl _) (by omega)]
  by_cases h4 : 4 ≤ D.length
  · rw [if_pos h4]
    obtain ⟨m, hm⟩ : ∃ m, D.length - 3 = m + 1 := ⟨D.length - 4, by omega⟩
    have hs := backtrack_test_succeeds D rest hD (m + 1) (by omega)
    rw [hm]
    simp only [backtrack]
    rw [hs.1, if_pos ⟨hs.2.1, hs.2.2⟩]
    have e1 : List.take (m + 1) (D ++ rest) = List.take (m + 1) D :=
      List.take_append_of_le_length (by omega)
    have e2 : List.take 3 (List.drop (m + 1) D) = List.drop (m + 1) D := by
      apply List.take_of_length_le
      rw [List.length_drop]
      omega
    have e3 : List.drop (m + 1 + 3) (D ++ rest) = rest := by
      have : m + 1 + 3 = D.length := by omega
      rw [this]
      simp
    rw [e1, e2, e3]
  · rw [if_neg h4]
    have h0 : D.length - 3 = 0 := by omega
    rw [h0]
    rfl

theorem rgxExec_skip (c : Char) (cs : JSString) (hc : isDigit c = false) :
    rgxExec (c :: cs) =
      (rgxExec cs).map fun m => ⟨c :: m.before, m.group1, m.group2, m.after⟩ := by
  have hm : matchAt (c :: cs) = none := by
    simp [matchAt, List.takeWhile, hc, backtrack]
  simp only [rgxExec, hm]

theorem rgxExec_skip_list (t rest : JSString) (ht : ∀ c ∈ t, isDigit c = false) :
    rgxExec (t ++ rest) =
      (rgxExec rest).map fun m => ⟨t ++ m.before, m.group1, m.group2, m.after⟩ := by
  induction t with
  | nil =>
    simp only [List.nil_append]
    cases rgxExec rest <;> rfl
  | cons c t ih =>
    have hc : isDigit c = false := ht c (List.mem_cons_self c t)
    have ih2 := ih (fun x hx => ht x (List.mem_cons_of_mem c hx))
    rw [List.cons_append, rgxExec_skip c (t ++ rest) hc, ih2]
    cases rgxExec rest <;> rfl

theorem rgxExec_long_run (D rest : JSString) (hD : ∀ c ∈ D, isDigit c = true)
    (hrest : ∀ c, rest.head? = some c → isDigit c = false) (h4 : 4 ≤ D.length) :
    rgxExec (D ++ rest) =
      some ⟨[], D.take (D.length - 3), D.drop (D.length - 3), rest⟩ := by
  have hm := matchAt_digits D rest hD hrest
  rw [if_pos h4] at hm
  cases D with
  | nil => simp at h4
  | cons d D =>
    rw [List.cons_append] at hm ⊢
    simp only [rgxExec, hm]

theorem rgxExec_short_run (D rest : JSString) (hD : ∀ c ∈ D, isDigit c = true)
    (hrest : ∀ c, rest.head? = some c → isDigit c = false) (h3 : D.length ≤ 3) :
    rgxExec (D ++ rest) =
      (rgxExec rest).map fun m => ⟨D ++ m.before, m.group1, m.group2, m.after⟩ := by
  induction D with
  | nil =>
    simp only [List.nil_append]
    cases rgxExec rest <;> rfl
  | cons d D ih =>
    have hm := matchAt_digits (d :: D) rest hD hrest
    rw [if_neg (by omega)] at hm
    have ih2 := ih (fun c hc => hD c (List.mem_cons_of_mem d hc))
      (by simp at h3; omega)
    rw [List.cons_append] at hm ⊢
    simp only [rgxExec, hm, ih2]
    cases rgxExec rest <;> rfl

theorem sepGroups_head (t : JSString) (ht0 : t ≠ []) (ht : ∀ c ∈ t, isDigit c = false)
    (gs : List JSString) : ∀ c, (sepGroups t gs).head? = some c → isDigit c = false := by
  intro c hc
  cases gs with
  | nil => simp [sepGroups] at hc
  | cons g gs =>
    cases t with
    | nil => exact absurd rfl ht0
    | cons a t =>
      simp [sepGroups] at hc
      subst hc
      exact ht a (List.mem_cons_self a t)

theorem rgxExec_sepGroups (t : JSString) (ht0 : t ≠ []) (ht : ∀ c ∈ t, isDigit c = false)
    (gs : List JSString) (hgs : ∀ g ∈ gs, g.length = 3 ∧ ∀ c ∈ g, isDigit c = true) :
    rgxExec (sepGroups t gs) = none := by
  induction gs with
  | nil => rfl
  | cons g gs ih =>
    have hg := hgs g (List.mem_cons_self g gs)
    have ih2 := ih (fun x hx => hgs x (List.mem_cons_of_mem g hx))
    simp only [sepGroups]
    rw [List.append_assoc, rgxExec_skip_list t _ ht,
      rgxExec_short_run g _ hg.2 (sepGroups_head t ht0 ht gs) (by omega), ih2]
    rfl

/-! ## The replacement template -/

theorem getSubstitutionAux_copy (m : RegexMatch) (t rest : JSString) (ht : ∀ c ∈ t, c ≠ '$')
    (j : Nat) :
    getSubstitutionAux m (t.length + j) (t ++ rest) = t ++ getSubstitutionAux m j rest := by
  induction t with
  | nil => simp
  | cons c t ih =>
    have hc : c ≠ '$' := ht c (List.mem_cons_self c t)
    have ih2 := ih (fun x hx => ht x (List.mem_cons_of_mem c hx))
    have e : (c :: t).length + j = (t.length + j) + 1 := by simp; omega
    rw [e, List.cons_append]
    simp only [getSubstitutionAux]
    rw [if_pos hc, ih2]
    rfl

theorem getSubstitutionAux_first (m : RegexMatch) (k : Nat) (e : Char) (r2 : JSString)
    (he : isDigit e = false) :
    getSubstitutionAux m (k + 1) ('$' :: '1' :: e :: r2) =
      m.group1 ++ getSubstitutionAux m k (e :: r2) := by
  have h1 : isDigit '1' = true := by decide
  have h2 : digitVal '1' = 1 := by decide
  have h3 : ¬ ('1' = '$') := by decide
  have h4 : ¬ ('1' = '&') := by decide
  have h5 : ¬ ('1' = Char.ofNat 96) := by decide
  have h6 : ¬ ('1' = Char.ofNat 39) := by decide
  have h7 : ¬ ('$' ≠ '$') := by decide
  have hcond : ¬ (isDigit e = true ∧ 10 * digitVal '1' + digitVal e ≤ 2) := by
    rw [he]
    simp
  have hcap : capture m (digitVal '1') = some m.group1 := by
    rw [h2]
    rfl
  rw [getSubstitutionAux]
  rw [if_neg h7]
  simp only [if_neg h3, if_neg h4, if_neg h5, if_neg h6, h1, if_true, if_neg hcond, hcap]

theorem getSubstitutionAux_last (m : RegexMatch) (j : Nat) :
    getSubstitutionAux m (j + 1) ['$', '2'] = m.group2 := by
  simp [getSubstitutionAux, capture, isDigit, digitChars, digitVal]

theorem getSubstitution_template (m : RegexMatch) (t : JSString) (ht0 : t ≠ [])
    (ht : ∀ c ∈ t, c ≠ '$') (htd : ∀ c ∈ t, isDigit c = false) :
    getSubstitution m (['$', '1'] ++ t ++ ['$', '2']) = m.group1 ++ t ++ m.group2 := by
  cases t with
  | nil => exact absurd rfl ht0
  | cons e t =>
    have he : isDigit e = false := htd e (List.mem_cons_self e t)
    have hlen : (['$', '1'] ++ (e :: t) ++ ['$', '2']).length = ((e :: t).length + 3) + 1 := by
      simp
    unfold getSubstitution
    rw [hlen]
    have hcopy := getSubstitutionAux_copy m (e :: t) ['$', '2'] ht 3
    have hshape : ['$', '1'] ++ (e :: t) ++ ['$', '2'] = '$' :: '1' :: e :: (t ++ ['$', '2']) := by
      simp
    rw [hshape, getSubstitutionAux_first m _ e _ he]
    have hshape2 : e :: (t ++ ['$', '2']) = (e :: t) ++ ['$', '2'] := rfl
    rw [hshape2, hcopy, getSubstitutionAux_last m 2]
    simp

/-! ## The grouping loop against the pass from the right -/

theorem list_length_three {α : Type} (L : List α) (h : L.length = 3) :
    ∃ a b c, L = [a, b, c] := by
  match L, h with
  | [a, b, c], _ => exact ⟨a, b, c, rfl⟩

theorem groupPass_short (t D acc : JSString) (h3 : D.length ≤ 3) :
    groupPass t D.reverse 0 acc = D ++ acc := by
  match D, h3 with
  | [], _ => rfl
  | [a], _ => rfl
  | [a, b], _ => rfl
  | [a, b, c], _ => rfl
  | _ :: _ :: _ :: _ :: _, h => simp at h

theorem groupPass_long (t D acc : JSString) (h4 : 4 ≤ D.length) :
    groupPass t D.reverse 0 acc =
      groupPass t (D.take (D.length - 3)).reverse 0 (t ++ D.drop (D.length - 3) ++ acc) := by
  have hL : (D.drop (D.length - 3)).length = 3 := by
    rw [List.length_drop]
    omega
  obtain ⟨a, b, c, habc⟩ := list_length_three _ hL
  have hD1 : (D.take (D.length - 3)).length = D.length - 3 := by
    rw [List.length_take]
    omega
  have hsplit : D = D.take (D.length - 3) ++ [a, b, c] := by
    rw [← habc, List.take_append_drop]
  generalize D.take (D.length - 3) = D1 at hD1 hsplit
  rw [habc]
  have hrev : D.reverse = c :: b :: a :: D1.reverse := by
    rw [hsplit]
    simp
  rw [hrev]
  cases hR : D1.reverse with
  | nil =>
    have : D1.length = 0 := by
      rw [← List.length_reverse, hR]
      rfl
    omega
  | cons x R =>
    simp only [groupPass]
    simp

theorem sepGroups_cons (t g : JSString) (gs : List JSString) :
    sepGroups t (g :: gs) = t ++ g ++ sepGroups t gs := rfl

theorem groupLoop_run (t : JSString) (ht0 : t ≠ []) (htd : ∀ c ∈ t, isDigit c = false)
    (hts : ∀ c ∈ t, c ≠ '$') (pre : JSString) (hpre : ∀ c ∈ pre, isDigit c = false) :
    ∀ (n : Nat) (D : JSString) (gs : List JSString) (fuel : Nat),
      D.length = n → (∀ c ∈ D, isDigit c = true) →
      (∀ g ∈ gs, g.length = 3 ∧ ∀ c ∈ g, isDigit c = true) → n < fuel →
      groupLoop t fuel (pre ++ D ++ sepGroups t gs) =
        some (pre ++ groupPass t D.reverse 0 (sepGroups t gs)) := by
  intro n
  induction n using Nat.strong_induction_on with
  | _ n ih =>
    intro D gs fuel hn hD hgs hfuel
    obtain ⟨f, rfl⟩ : ∃ f, fuel = f + 1 := ⟨fuel - 1, by omega⟩
    have hhead := sepGroups_head t ht0 htd gs
    have hnone := rgxExec_sepGroups t ht0 htd gs hgs
    by_cases h4 : 4 ≤ D.length
    · have hexec : rgxExec (pre ++ D ++ sepGroups t gs) =
          some ⟨pre, D.take (D.length - 3), D.drop (D.length - 3), sepGroups t gs⟩ := by
        rw [List.append_assoc, rgxExec_skip_list pre _ hpre,
          rgxExec_long_run D _ hD hhead h4]
        simp
      have hD1 : ∀ c ∈ D.take (D.length - 3), isDigit c = true :=
        fun c hc => hD c (List.mem_of_mem_take hc)
      have hD2 : ∀ c ∈ D.drop (D.length - 3), isDigit c = true :=
        fun c hc => hD c (List.mem_of_mem_drop hc)
      have hlen1 : (D.take (D.length - 3)).length = D.length - 3 := by
        rw [List.length_take]
        omega
      have hlen2 : (D.drop (D.length - 3)).length = 3 := by
        rw [List.length_drop]
        omega
      have hgs2 : ∀ g ∈ D.drop (D.length - 3) :: gs,
          g.length = 3 ∧ ∀ c ∈ g, isDigit c = true := by
        intro g hg
        rcases List.mem_cons.1 hg with rfl | hg
        · exact ⟨hlen2, hD2⟩
        · exact hgs g hg
      have hnext := ih (D.length - 3) (by omega) (D.take (D.length - 3))
        (D.drop (D.length - 3) :: gs) f hlen1 hD1 hgs2 (by omega)
      rw [groupLoop, hexec]
      simp only [replaceMatch]
      rw [getSubstitution_template _ t ht0 hts htd]
      rw [groupPass_long t D _ h4]
      simp only [sepGroups_cons, List.append_assoc] at hnext ⊢
      exact hnext
    · have hexec : rgxExec (pre ++ D ++ sepGroups t gs) = none := by
        rw [List.append_assoc, rgxExec_skip_list pre _ hpre,
          rgxExec_short_run D _ hD hhead (by omega), hnone]
        rfl
      rw [groupLoop, hexec, groupPass_short t D _ (by omega)]
      simp

theorem sepGroups_append (t : JSString) (as bs : List JSString) :
    sepGroups t (as ++ bs) = sepGroups t as ++ sepGroups t bs := by
  induction as with
  | nil => rfl
  | cons a as ih => simp [sepGroups, ih]

theorem groupPass_groups (t : JSString) :
    ∀ (n : Nat) (D : JSString) (gs0 : List JSString), D.length = n → D ≠ [] →
      ∃ (hd : JSString) (gs : List JSString),
        groupPass t D.reverse 0 (sepGroups t gs0) = hd ++ sepGroups t (gs ++ gs0) ∧
        hd ++ sepGroups [] gs = D ∧ 1 ≤ hd.length ∧ hd.length ≤ 3 ∧
        ∀ g ∈ gs, g.length = 3 := by
  intro n
  induction n using Nat.strong_induction_on with
  | _ n ih =>
    intro D gs0 hn hne
    have hpos : 1 ≤ D.length := by
      cases D with
      | nil => exact absurd rfl hne
      | cons a D => simp
    by_cases h4 : 4 ≤ D.length
    · have hlen1 : (D.take (D.length - 3)).length = D.length - 3 := by
        rw [List.length_take]
        omega
      have hlen2 : (D.drop (D.length - 3)).length = 3 := by
        rw [List.length_drop]
        omega
      have hne1 : D.take (D.length - 3) ≠ [] := by
        intro h0
        rw [h0] at hlen1
        simp at hlen1
        omega
      obtain ⟨hd, gs, h1, h2, h3, h4b, h5⟩ := ih (D.length - 3) (by omega)
        (D.take (D.length - 3)) (D.drop (D.length - 3) :: gs0) hlen1 hne1
      refine ⟨hd, gs ++ [D.drop (D.length - 3)], ?_, ?_, h3, h4b, ?_⟩
      · rw [groupPass_long t D _ h4]
        rw [sepGroups_cons] at h1
        rw [h1]
        simp [sepGroups_append, sepGroups]
      · rw [sepGroups_append, ← List.append_assoc, h2]
        simp [sepGroups]
      · intro g hg
        rcases List.mem_append.1 hg with hg | hg
        · exact h5 g hg
        · simp at hg
          rw [hg]
          exact hlen2
    · refine ⟨D, [], ?_, ?_, hpos, by omega, ?_⟩
      · rw [groupPass_short t D _ (by omega)]
        rfl
      · simp [sepGroups]
      · intro g hg
        simp at hg

theorem split_no_sep (sep : Char) (s : JSString) (h : ∀ c ∈ s, c ≠ sep) :
    split sep s = [s] := by
  induction s with
  | nil => rfl
  | cons c s ih =>
    have hc : c ≠ sep := h c (List.mem_cons_self c s)
    have ih2 := ih (fun x hx => h x (List.mem_cons_of_mem c hx))
    simp [split, hc, ih2]

theorem isDigit_ne_dot (c : Char) (h : isDigit c = true) : c ≠ '.' := by
  intro hc
  rw [hc] at h
  exact absurd h (by decide)

/-- C2: for a non-empty thousands separator without a digit and without `$`, and an
input made of an optional `-` and one or more digits, `commaFormat` with precision 0
returns (for every fuel above the number of digits) the sign followed by the
result of the single pass from the right over the digits.  That result is a first
group of one to three digits followed by groups of exactly three digits, each
preceded by the separator; deleting the separators gives the digits back; an
integer part of at most three digits is returned unchanged. -/
theorem commaFormat_integer_spec (t d sign digits : JSString) (fuel : Nat)
    (ht0 : t ≠ []) (htd : ∀ c ∈ t, isDigit c = false) (hts : ∀ c ∈ t, c ≠ '$')
    (hsign : sign = [] ∨ sign = ['-'])
    (hne : digits ≠ []) (hdig : ∀ c ∈ digits, isDigit c = true)
    (hfuel : digits.length < fuel) :
    commaFormat fuel (sign ++ digits) (Precision.digits 0) t d =
      some (sign ++ groupFromRight t digits) ∧
    (∃ (hd : JSString) (gs : List JSString),
      groupFromRight t digits = hd ++ sepGroups t gs ∧
      hd ++ sepGroups [] gs = digits ∧ 1 ≤ hd.length ∧ hd.length ≤ 3 ∧
      ∀ g ∈ gs, g.length = 3) ∧
    (digits.length ≤ 3 →
      commaFormat fuel (sign ++ digits) (Precision.digits 0) t d = some (sign ++ digits)) := by
  have hpre : ∀ c ∈ sign, isDigit c = false := by
    intro c hc
    rcases hsign with rfl | rfl
    · simp at hc
    · simp at hc
      rw [hc]
      decide
  have hmain : commaFormat fuel (sign ++ digits) (Precision.digits 0) t d =
      some (sign ++ groupFromRight t digits) := by
    by_cases hzero : sign ++ digits = ['0']
    · have hs : sign = [] := by
        rcases hsign with rfl | rfl
        · rfl
        · simp at hzero
      rw [hs] at hzero ⊢
      simp only [List.nil_append] at hzero ⊢
      rw [hzero]
      simp [commaFormat, groupFromRight, groupPass]
    · have hnodot : ∀ c ∈ sign ++ digits, c ≠ '.' := by
        intro c hc
        rcases List.mem_append.1 hc with h | h
        · rcases hsign with rfl | rfl
          · simp at h
          · simp at h
            rw [h]
            decide
        · exact isDigit_ne_dot c (hdig c h)
      have hrun := groupLoop_run t ht0 htd hts sign hpre digits.length digits [] fuel rfl
        hdig (by simp) hfuel
      simp only [sepGroups, List.append_nil] at hrun
      simp only [commaFormat, if_neg ht0, if_neg hzero, reparse,
        split_no_sep '.' _ hnodot]
      simp [hrun, groupFromRight]
  refine ⟨hmain, ?_, ?_⟩
  · obtain ⟨hd, gs, h1, h2, h3, h4, h5⟩ :=
      groupPass_groups t digits.length digits [] rfl hne
    refine ⟨hd, gs, ?_, h2, h3, h4, h5⟩
    simpa [groupFromRight, sepGroups] using h1
  · intro h3
    rw [hmain, groupFromRight, groupPass_short t digits [] h3]
    simp

/-- Witness for C2: the two examples of the claim, `"1234567"` and `"-1234567"`
with the separators `,` and `.`. -/
theorem commaFormat_integer_spec_witness :
    commaFormat 8 ['1', '2', '3', '4', '5', '6', '7'] (Precision.digits 0) [','] ['.'] =
      some ['1', ',', '2', '3', '4', ',', '5', '6', '7'] ∧
    commaFormat 8 ['-', '1', '2', '3', '4', '5', '6', '7'] (Precision.digits 0) [','] ['.'] =
      some ['-', '1', ',', '2', '3', '4', ',', '5', '6', '7'] :=
  ⟨(commaFormat_integer_spec [','] ['.'] [] ['1', '2', '3', '4', '5', '6', '7'] 8
      (by decide) (by decide) (by decide) (Or.inl rfl) (by decide) (by decide)
      (by decide)).1.trans (by decide),
   (commaFormat_integer_spec [','] ['.'] ['-'] ['1', '2', '3', '4', '5', '6', '7'] 8
      (by decide) (by decide) (by decide) (Or.inr rfl) (by decide) (by decide)
      (by decide)).1.trans (by decide)⟩

/-! ## Digit strings -/

theorem isDigit_cases (c : Char) (h : isDigit c = true) :
    c = '0' ∨ c = '1' ∨ c = '2' ∨ c = '3' ∨ c = '4' ∨ c = '5' ∨ c = '6' ∨ c = '7' ∨
      c = '8' ∨ c = '9' := by
  simpa [isDigit, digitChars] using h

theorem digitVal_lt (c : Char) (h : isDigit c = true) : digitVal c < 10 := by
  rcases isDigit_cases c h with h | h | h | h | h | h | h | h | h | h <;> subst h <;> decide

theorem digitVal_inj (c e : Char) (hc : isDigit c = true) (he : isDigit e = true)
    (h : digitVal c = digitVal e) : c = e := by
  rcases isDigit_cases c hc with h1 | h1 | h1 | h1 | h1 | h1 | h1 | h1 | h1 | h1 <;>
    subst h1 <;>
    rcases isDigit_cases e he with h2 | h2 | h2 | h2 | h2 | h2 | h2 | h2 | h2 | h2 <;>
    subst h2 <;> first | rfl | exact absurd h (by decide)

theorem digitVal_digitChar (d : Nat) (h : d < 10) : digitVal (digitChar d) = d := by
  interval_cases d <;> decide

theorem isDigit_digitChar (d : Nat) (h : d < 10) : isDigit (digitChar d) = true := by
  interval_cases d <;> decide

theorem digitVal_eq_zero (c : Char) (hc : isDigit c = true) (h : digitVal c = 0) : c = '0' :=
  digitVal_inj c '0' hc (by decide) (by rw [h]; decide)

theorem foldl_digits (s : JSString) (a : Nat) :
    s.foldl (fun acc c => 10 * acc + digitVal c) a = a * 10 ^ s.length + digitsNat s := by
  induction s generalizing a with
  | nil => simp [digitsNat]
  | cons c s ih =>
    simp only [List.foldl_cons, digitsNat, List.length_cons]
    rw [ih (10 * a + digitVal c), ih (10 * 0 + digitVal c)]
    simp only [digitsNat]
    ring

theorem digitsNat_append (s1 s2 : JSString) :
    digitsNat (s1 ++ s2) = digitsNat s1 * 10 ^ s2.length + digitsNat s2 := by
  unfold digitsNat
  rw [List.foldl_append, foldl_digits s2]
  rfl

theorem digitsNat_cons (c : Char) (s : JSString) :
    digitsNat (c :: s) = digitVal c * 10 ^ s.length + digitsNat s := by
  have h := digitsNat_append [c] s
  simpa [digitsNat] using h

theorem digitsNat_lt (s : JSString) (hs : ∀ c ∈ s, isDigit c = true) :
    digitsNat s < 10 ^ s.length := by
  induction s with
  | nil => simp [digitsNat]
  | cons c s ih =>
    have hc := digitVal_lt c (hs c (List.mem_cons_self c s))
    have ih2 := ih (fun x hx => hs x (List.mem_cons_of_mem c hx))
    rw [digitsNat_cons, List.length_cons, pow_succ]
    nlinarith

theorem digitsNat_replicate_zero (k : Nat) : digitsNat (List.replicate k '0') = 0 := by
  induction k with
  | zero => rfl
  | succ k ih =>
    rw [List.replicate_succ, digitsNat_cons, ih]
    simp
    decide

theorem digitsNat_inj (s1 s2 : JSString) (h1 : ∀ c ∈ s1, isDigit c = true)
    (h2 : ∀ c ∈ s2, isDigit c = true) (hlen : s1.length = s2.length)
    (h : digitsNat s1 = digitsNat s2) : s1 = s2 := by
  induction s1 generalizing s2 with
  | nil =>
    cases s2 with
    | nil => rfl
    | cons c s2 => simp at hlen
  | cons a s1 ih =>
    cases s2 with
    | nil => simp at hlen
    | cons b s2 =>
      have hl : s1.length = s2.length := by simpa using hlen
      have ha := h1 a (List.mem_cons_self a s1)
      have hb := h2 b (List.mem_cons_self b s2)
      have hs1 : ∀ c ∈ s1, isDigit c = true := fun x hx => h1 x (List.mem_cons_of_mem a hx)
      have hs2 : ∀ c ∈ s2, isDigit c = true := fun x hx => h2 x (List.mem_cons_of_mem b hx)
      have b1 := digitsNat_lt s1 hs1
      have b2 := digitsNat_lt s2 hs2
      rw [digitsNat_cons, digitsNat_cons, hl] at h
      rw [hl] at b1
      have hpos : 0 < 10 ^ s2.length := by positivity
      have hq : digitVal a = digitVal b := by
        have e1 : (digitVal a * 10 ^ s2.length + digitsNat s1) / 10 ^ s2.length = digitVal a := by
          rw [Nat.add_comm, Nat.add_mul_div_right _ _ hpos, Nat.div_eq_of_lt b1]
          simp
        have e2 : (digitVal b * 10 ^ s2.length + digitsNat s2) / 10 ^ s2.length = digitVal b := by
          rw [Nat.add_comm, Nat.add_mul_div_right _ _ hpos, Nat.div_eq_of_lt b2]
          simp
        rw [← e1, ← e2, h]
      have hr : digitsNat s1 = digitsNat s2 := by
        rw [hq] at h
        omega
      rw [digitVal_inj a b ha hb hq, ih s2 hs1 hs2 hl hr]

/-! ## natStr -/

theorem digitsFrom_digits (fuel n : Nat) (acc : JSString)
    (hacc : ∀ c ∈ acc, isDigit c = true) :
    ∀ c ∈ digitsFrom fuel n acc, isDigit c = true := by
  induction fuel generalizing n acc with
  | zero => exact hacc
  | succ fuel ih =>
    unfold digitsFrom
    by_cases h : n < 10
    · rw [if_pos h]
      intro c hc
      rcases List.mem_cons.1 hc with rfl | hc
      · exact isDigit_digitChar n h
      · exact hacc c hc
    · rw [if_neg h]
      apply ih
      intro c hc
      rcases List.mem_cons.1 hc with rfl | hc
      · exact isDigit_digitChar _ (Nat.mod_lt _ (by norm_num))
      · exact hacc c hc

theorem digitsNat_digitsFrom (fuel n : Nat) (acc : JSString) (hf : n < fuel) :
    digitsNat (digitsFrom fuel n acc) = n * 10 ^ acc.length + digitsNat acc := by
  induction fuel generalizing n acc with
  | zero => omega
  | succ fuel ih =>
    unfold digitsFrom
    by_cases h : n < 10
    · rw [if_pos h, digitsNat_cons, digitVal_digitChar n h]
    · rw [if_neg h, ih (n / 10) _ (by omega), digitsNat_cons,
        digitVal_digitChar _ (Nat.mod_lt _ (by norm_num)), List.length_cons, pow_succ]
      have hdm : n * 10 ^ acc.length = (10 * (n / 10) + n % 10) * 10 ^ acc.length := by
        rw [Nat.div_add_mod n 10]
      rw [hdm]
      ring

theorem length_digitsFrom_le (fuel n : Nat) (acc : JSString) (L : Nat) (hf : n < fuel)
    (hL : 1 ≤ L) (hn : n < 10 ^ L) :
    (digitsFrom fuel n acc).length ≤ L + acc.length := by
  induction fuel generalizing n acc L with
  | zero => omega
  | succ fuel ih =>
    unfold digitsFrom
    by_cases h : n < 10
    · rw [if_pos h]
      simp
      omega
    · rw [if_neg h]
      obtain ⟨K, rfl⟩ : ∃ K, L = K + 1 := ⟨L - 1, by omega⟩
      have hK : 1 ≤ K := by
        by_contra hk
        have : K = 0 := by omega
        subst this
        simp at hn
        omega
      have hdiv : n / 10 < 10 ^ K := by
        rw [pow_succ] at hn
        exact Nat.div_lt_of_lt_mul (by omega)
      have := ih (n / 10) (digitChar (n % 10) :: acc) K (by omega) hK hdiv
      simp at this
      omega

theorem length_digitsFrom_pos (fuel n : Nat) (acc : JSString) :
    acc.length + 1 ≤ (digitsFrom (fuel + 1) n acc).length := by
  induction fuel generalizing n acc with
  | zero =>
    unfold digitsFrom
    by_cases h : n < 10
    · simp [h]
    · simp [h, digitsFrom]
  | succ fuel ih =>
    unfold digitsFrom
    by_cases h : n < 10
    · simp [h]
    · rw [if_neg h]
      have := ih (n / 10) (digitChar (n % 10) :: acc)
      simp at this
      omega

theorem natStr_digits (n : Nat) : ∀ c ∈ natStr n, isDigit c = true :=
  digitsFrom_digits (n + 1) n [] (by simp)

theorem digitsNat_natStr (n : Nat) : digitsNat (natStr n) = n := by
  unfold natStr
  rw [digitsNat_digitsFrom (n + 1) n [] (by omega)]
  simp [digitsNat]

theorem natStr_length_pos (n : Nat) : 1 ≤ (natStr n).length := by
  have := length_digitsFrom_pos n n []
  simpa [natStr] using this

theorem natStr_length_le (n L : Nat) (hL : 1 ≤ L) (hn : n < 10 ^ L) :
    (natStr n).length ≤ L := by
  have := length_digitsFrom_le (n + 1) n [] L (by omega) hL hn
  simpa [natStr] using this

theorem natStr_length_ge (n L : Nat) (hn : 10 ^ L ≤ n) : L + 1 ≤ (natStr n).length := by
  have h1 := digitsNat_lt (natStr n) (natStr_digits n)
  rw [digitsNat_natStr] at h1
  have h2 : 10 ^ L < 10 ^ (natStr n).length := lt_of_le_of_lt hn h1
  have := (Nat.pow_lt_pow_iff_right (by norm_num : 1 < 10)).1 h2
  omega

/-! ## toFixed -/

theorem padZeros_digits (p : Nat) (m : JSString) (hm : ∀ c ∈ m, isDigit c = true) :
    ∀ c ∈ padZeros p m, isDigit c = true := by
  intro c hc
  unfold padZeros at hc
  by_cases h : m.length ≤ p
  · rw [if_pos h] at hc
    rcases List.mem_append.1 hc with hc | hc
    · rw [(List.mem_replicate.1 hc).2]
      decide
    · exact hm c hc
  · rw [if_neg h] at hc
    exact hm c hc

theorem digitsNat_padZeros (p : Nat) (m : JSString) :
    digitsNat (padZeros p m) = digitsNat m := by
  unfold padZeros
  by_cases h : m.length ≤ p
  · rw [if_pos h, digitsNat_append, digitsNat_replicate_zero]
    simp
  · rw [if_neg h]

theorem padZeros_length (p : Nat) (m : JSString) :
    (padZeros p m).length = if m.length ≤ p then p + 1 else m.length := by
  unfold padZeros
  by_cases h : m.length ≤ p
  · simp [h]
    omega
  · simp [h]

theorem padZeros_length_gt (p : Nat) (m : JSString) : p < (padZeros p m).length := by
  rw [padZeros_length]
  by_cases h : m.length ≤ p
  · simp [h]
  · simp [h]
    omega

theorem pointed_split (p : Nat) (m : JSString) (hp : p ≠ 0) :
    ∃ A B : JSString, pointed p m = A ++ '.' :: B ∧ A ++ B = padZeros p m ∧
      B.length = p ∧ 1 ≤ A.length := by
  have hlen := padZeros_length_gt p m
  refine ⟨(padZeros p m).take ((padZeros p m).length - p),
    (padZeros p m).drop ((padZeros p m).length - p), ?_, ?_, ?_, ?_⟩
  · simp [pointed, hp]
  · exact List.take_append_drop _ _
  · rw [List.length_drop]
    omega
  · rw [List.length_take]
    omega

theorem pointed_chars (p : Nat) (m : JSString) (hm : ∀ c ∈ m, isDigit c = true) :
    ∀ c ∈ pointed p m, isDigit c = true ∨ c = '.' := by
  intro c hc
  by_cases hp : p = 0
  · simp only [pointed, if_pos hp] at hc
    exact Or.inl (hm c hc)
  · obtain ⟨A, B, h1, h2, _, _⟩ := pointed_split p m hp
    rw [h1] at hc
    have hpad := padZeros_digits p m hm
    rw [← h2] at hpad
    rcases List.mem_append.1 hc with hc | hc
    · exact Or.inl (hpad c (List.mem_append_left _ hc))
    · rcases List.mem_cons.1 hc with hc | hc
      · exact Or.inr hc
      · exact Or.inl (hpad c (List.mem_append_right _ hc))

theorem filter_digits (s : JSString) (hs : ∀ c ∈ s, isDigit c = true) :
    s.filter isDigit = s := by
  rw [List.filter_eq_self]
  exact hs

theorem digitsNat_filter_pointed (p : Nat) (m : JSString) (hm : ∀ c ∈ m, isDigit c = true) :
    digitsNat ((pointed p m).filter isDigit) = digitsNat m := by
  by_cases hp : p = 0
  · simp only [pointed, if_pos hp]
    rw [filter_digits m hm]
  · obtain ⟨A, B, h1, h2, _, _⟩ := pointed_split p m hp
    have hpad := padZeros_digits p m hm
    rw [← h2] at hpad
    have hA : ∀ c ∈ A, isDigit c = true := fun c hc => hpad c (List.mem_append_left _ hc)
    have hB : ∀ c ∈ B, isDigit c = true := fun c hc => hpad c (List.mem_append_right _ hc)
    have hdot : isDigit '.' = false := by decide
    rw [h1, List.filter_append, List.filter_cons, hdot, filter_digits A hA, filter_digits B hB]
    simp only [Bool.false_eq_true, if_false]
    rw [h2, digitsNat_padZeros]

theorem mem_minus_toFixed (p : Nat) (x : ℚ) : '-' ∈ toFixed p x ↔ x < 0 := by
  unfold toFixed
  constructor
  · intro h
    by_contra hx
    rw [if_neg hx, List.nil_append] at h
    rcases pointed_chars p _ (natStr_digits _) '-' h with h1 | h1
    · exact absurd h1 (by decide)
    · exact absurd h1 (by decide)
  · intro hx
    rw [if_pos hx]
    simp

theorem digitsNat_filter_toFixed (p : Nat) (x : ℚ) :
    digitsNat ((toFixed p x).filter isDigit) = scaledNearest p x := by
  unfold toFixed
  have hminus : isDigit '-' = false := by decide
  by_cases hx : x < 0
  · rw [if_pos hx, List.filter_append]
    simp only [List.filter_cons, hminus, Bool.false_eq_true, if_false, List.filter_nil,
      List.nil_append]
    rw [digitsNat_filter_pointed p _ (natStr_digits _), digitsNat_natStr]
  · rw [if_neg hx, List.nil_append, digitsNat_filter_pointed p _ (natStr_digits _),
      digitsNat_natStr]

theorem mem_dot_toFixed (p : Nat) (x : ℚ) (hp : p ≠ 0) : '.' ∈ toFixed p x := by
  unfold toFixed
  obtain ⟨A, B, h1, _, _, _⟩ := pointed_split p (natStr (scaledNearest p x)) hp
  rw [h1]
  simp

theorem toFixed_eq_imp (p : Nat) (x y : ℚ) (h : toFixed p x = toFixed p y) :
    (x < 0 ↔ y < 0) ∧ scaledNearest p x = scaledNearest p y := by
  constructor
  · rw [← mem_minus_toFixed p x, ← mem_minus_toFixed p y, h]
  · rw [← digitsNat_filter_toFixed p x, ← digitsNat_filter_toFixed p y, h]

/-! ## Distinct labels at a fine enough precision -/

theorem scaledNearest_ne (p : Nat) (x y : ℚ) (hs : x < 0 ↔ y < 0)
    (hd : 1 ≤ |x - y| * 10 ^ p) : scaledNearest p x ≠ scaledNearest p y := by
  intro h
  unfold scaledNearest at h
  have hpow : (0 : ℚ) < 10 ^ p := by positivity
  have key : ∀ a b : ℚ, 0 ≤ a → 0 ≤ b → |a - b| = |x - y| →
      (⌊a * 10 ^ p + 1 / 2⌋).toNat = (⌊b * 10 ^ p + 1 / 2⌋).toNat → False := by
    intro a b ha hb hab hfl
    have h1 : (0 : ℤ) ≤ ⌊a * 10 ^ p + 1 / 2⌋ := Int.floor_nonneg.2 (by positivity)
    have h2 : (0 : ℤ) ≤ ⌊b * 10 ^ p + 1 / 2⌋ := Int.floor_nonneg.2 (by positivity)
    have h3 : ⌊a * 10 ^ p + 1 / 2⌋ = ⌊b * 10 ^ p + 1 / 2⌋ := by
      rw [← Int.toNat_of_nonneg h1, ← Int.toNat_of_nonneg h2, hfl]
    have h4 := Int.abs_sub_lt_one_of_floor_eq_floor h3
    have h5 : a * 10 ^ p + 1 / 2 - (b * 10 ^ p + 1 / 2) = (a - b) * 10 ^ p := by ring
    rw [h5, abs_mul, abs_of_pos hpow, hab] at h4
    linarith
  by_cases hx : x < 0
  · have hy : y < 0 := hs.1 hx
    rw [if_pos hx, if_pos hy] at h
    refine key (-x) (-y) (by linarith) (by linarith) ?_ h
    rw [show -x - -y = -(x - y) by ring, abs_neg]
  · have hy : ¬ y < 0 := fun hy => hx (hs.2 hy)
    rw [if_neg hx, if_neg hy] at h
    exact key x y (by linarith) (by linarith) rfl h

theorem labelOf_of_ne_zero (p : Nat) (v : ℚ) (hp : p ≠ 0) :
    labelOf p v = if v = 0 then ['0'] else toFixed p v := by
  unfold labelOf
  by_cases hv : v = 0
  · simp [hv]
  · simp only [if_neg hv]
    have hdot := mem_dot_toFixed p v hp
    have hne : toFixed p v ≠ ['-', '0'] := by
      intro h
      rw [h] at hdot
      simp at hdot
    rw [if_neg hne]

theorem labelOf_ne (p : Nat) (v w : ℚ) (hp : p ≠ 0) (hd : 1 ≤ |v - w| * 10 ^ p) :
    labelOf p v ≠ labelOf p w := by
  have hvw : v ≠ w := by
    intro h
    rw [h] at hd
    simp at hd
    linarith
  rw [labelOf_of_ne_zero p v hp, labelOf_of_ne_zero p w hp]
  by_cases hv : v = 0
  · have hw : w ≠ 0 := fun h => hvw (hv.trans h.symm)
    rw [if_pos hv, if_neg hw]
    intro h
    have hdot := mem_dot_toFixed p w hp
    rw [← h] at hdot
    simp at hdot
  · rw [if_neg hv]
    by_cases hw : w = 0
    · rw [if_pos hw]
      intro h
      have hdot := mem_dot_toFixed p v hp
      rw [h] at hdot
      simp at hdot
    · rw [if_neg hw]
      intro h
      obtain ⟨hs, hn⟩ := toFixed_eq_imp p v w h
      exact scaledNearest_ne p v w hs hd hn

theorem getYLabelsFrom_eq_map (numYLabels : Nat) (maxVal minVal : ℚ) (precision : Nat)
    (k i : Nat) :
    getYLabelsFrom numYLabels maxVal minVal precision k i =
      (List.range' i k).map fun j => labelOf precision (tickValue numYLabels maxVal minVal j) := by
  induction k generalizing i with
  | zero => rfl
  | succ k ih => simp [getYLabelsFrom, ih, List.range'_succ]

theorem getYLabels_eq_map (numYLabels : Nat) (maxVal minVal : ℚ) (precision : Nat) :
    getYLabels numYLabels maxVal minVal precision =
      (List.range numYLabels).map fun j =>
        labelOf precision (tickValue numYLabels maxVal minVal j) := by
  rw [getYLabels, getYLabelsFrom_eq_map, List.range_eq_range']

theorem tickValue_sub (n : Nat) (maxVal minVal : ℚ) (i j : Nat) :
    tickValue n maxVal minVal i - tickValue n maxVal minVal j =
      ((i : ℚ) - (j : ℚ)) / ((n : ℚ) - 1) * (maxVal - minVal) := by
  unfold tickValue
  ring

/-! ## Reading the labels back with parseFloat -/

theorem dropWhile_digits_append (D rest : JSString) (hD : ∀ c ∈ D, isDigit c = true)
    (hrest : ∀ c, rest.head? = some c → isDigit c = false) :
    (D ++ rest).dropWhile isDigit = rest := by
  induction D with
  | nil =>
    cases rest with
    | nil => rfl
    | cons c r =>
      have h := hrest c rfl
      simp [List.dropWhile, h]
  | cons d D ih =>
    have hd : isDigit d = true := hD d (List.mem_cons_self d D)
    have ih2 := ih (fun c hc => hD c (List.mem_cons_of_mem d hc))
    simp [List.dropWhile, hd, ih2]

theorem takeWhile_digits (D : JSString) (hD : ∀ c ∈ D, isDigit c = true) :
    D.takeWhile isDigit = D := by
  have h := takeWhile_digits_append D [] hD (by simp)
  simpa using h

theorem dropWhile_digits (D : JSString) (hD : ∀ c ∈ D, isDigit c = true) :
    D.dropWhile isDigit = [] := by
  have h := dropWhile_digits_append D [] hD (by simp)
  simpa using h

theorem unsignedLiteral_digits (A : JSString) (hA : ∀ c ∈ A, isDigit c = true) (hne : A ≠ []) :
    unsignedLiteral A = some (digitsNat A : ℚ) := by
  unfold unsignedLiteral
  simp only [takeWhile_digits A hA, dropWhile_digits A hA]
  simp [hne, exponentPart]

theorem unsignedLiteral_pointed (A B : JSString) (hA : ∀ c ∈ A, isDigit c = true)
    (hB : ∀ c ∈ B, isDigit c = true) (hne : A ≠ []) :
    unsignedLiteral (A ++ '.' :: B) = some ((digitsNat (A ++ B) : ℚ) / 10 ^ B.length) := by
  have hrest : ∀ c, ('.' :: B).head? = some c → isDigit c = false := by
    intro c hc
    simp at hc
    rw [← hc]
    decide
  unfold unsignedLiteral
  simp only [takeWhile_digits_append A _ hA hrest, dropWhile_digits_append A _ hA hrest]
  simp [hne, exponentPart, takeWhile_digits B hB, dropWhile_digits B hB]

theorem isWhiteSpace_digit (c : Char) (h : isDigit c = true) : isWhiteSpace c = false := by
  rcases isDigit_cases c h with h | h | h | h | h | h | h | h | h | h <;> subst h <;> decide

theorem digit_ne_sign (c : Char) (h : isDigit c = true) : c ≠ '-' ∧ c ≠ '+' := by
  rcases isDigit_cases c h with h | h | h | h | h | h | h | h | h | h <;> subst h <;> decide

theorem parseFloat_unsigned (s : JSString) (c : Char) (r : JSString) (hs : s = c :: r)
    (hc : isDigit c = true) : parseFloat s = unsignedLiteral s := by
  subst hs
  have hw := isWhiteSpace_digit c hc
  have hsgn := digit_ne_sign c hc
  simp [parseFloat, List.dropWhile, hw, hsgn.1, hsgn.2]

theorem parseFloat_minus (s : JSString) :
    parseFloat ('-' :: s) = (unsignedLiteral s).map fun q => -q := by
  have hw : isWhiteSpace '-' = false := by decide
  simp [parseFloat, List.dropWhile, hw]

theorem unsignedLiteral_pointed_natStr (p n : Nat) :
    unsignedLiteral (pointed p (natStr n)) = some ((n : ℚ) / 10 ^ p) ∧
    ∃ c r, pointed p (natStr n) = c :: r ∧ isDigit c = true := by
  have hm := natStr_digits n
  by_cases hp : p = 0
  · have hne : natStr n ≠ [] := by
      intro h
      have := natStr_length_pos n
      rw [h] at this
      simp at this
    constructor
    · simp only [pointed, if_pos hp]
      rw [unsignedLiteral_digits _ hm hne, digitsNat_natStr, hp]
      simp
    · simp only [pointed, if_pos hp]
      cases hs : natStr n with
      | nil => exact absurd hs hne
      | cons c r =>
        refine ⟨c, r, rfl, ?_⟩
        apply hm
        rw [hs]
        exact List.mem_cons_self c r
  · obtain ⟨A, B, h1, h2, h3, h4⟩ := pointed_split p (natStr n) hp
    have hpad := padZeros_digits p _ hm
    rw [← h2] at hpad
    have hA : ∀ c ∈ A, isDigit c = true := fun c hc => hpad c (List.mem_append_left _ hc)
    have hB : ∀ c ∈ B, isDigit c = true := fun c hc => hpad c (List.mem_append_right _ hc)
    have hne : A ≠ [] := by
      intro h
      rw [h] at h4
      simp at h4
    constructor
    · rw [h1, unsignedLiteral_pointed A B hA hB hne, h2, digitsNat_padZeros, digitsNat_natStr, h3]
    · rw [h1]
      cases A with
      | nil => exact absurd rfl hne
      | cons c r => exact ⟨c, r ++ '.' :: B, rfl, hA c (List.mem_cons_self c r)⟩

theorem parseFloat_toFixed (p : Nat) (x : ℚ) :
    parseFloat (toFixed p x) = some (roundedValue p x) := by
  obtain ⟨h1, c, r, h2, h3⟩ := unsignedLiteral_pointed_natStr p (scaledNearest p x)
  unfold toFixed roundedValue
  by_cases hx : x < 0
  · rw [if_pos hx, if_pos hx]
    simp only [List.singleton_append]
    rw [parseFloat_minus, h1]
    rfl
  · rw [if_neg hx, if_neg hx, List.nil_append, parseFloat_unsigned _ c r h2 h3, h1]

theorem scaledNearest_zero (p : Nat) : scaledNearest p 0 = 0 := by
  unfold scaledNearest
  norm_num

theorem parseFloat_labelOf (p : Nat) (v : ℚ) :
    parseFloat (labelOf p v) = some (roundedValue p v) := by
  have hzero : parseFloat ['0'] = some 0 := by
    rw [parseFloat_unsigned ['0'] '0' [] rfl (by decide),
      unsignedLiteral_digits ['0'] (by decide) (by decide)]
    simp [digitsNat]
    decide
  unfold labelOf
  by_cases hv : v = 0
  · subst hv
    simp only [if_true]
    rw [if_neg (by decide), hzero]
    simp [roundedValue, scaledNearest_zero]
  · simp only [if_neg hv]
    by_cases hm : toFixed p v = ['-', '0']
    · rw [if_pos hm, hzero]
      have h := parseFloat_toFixed p v
      rw [hm, parseFloat_minus, unsignedLiteral_digits ['0'] (by decide) (by decide)] at h
      rw [← h]
      simp [digitsNat]
      decide
    · rw [if_neg hm]
      exact parseFloat_toFixed p v

theorem scaledNearest_mono (p : Nat) (a b : ℚ) (hab : a ≤ b) :
    (⌊a * 10 ^ p + 1 / 2⌋).toNat ≤ (⌊b * 10 ^ p + 1 / 2⌋).toNat := by
  have hpow : (0 : ℚ) < 10 ^ p := by positivity
  apply Int.toNat_le_toNat
  apply Int.floor_le_floor
  have := mul_le_mul_of_nonneg_right hab (le_of_lt hpow)
  linarith

theorem roundedValue_mono (p : Nat) (v w : ℚ) (h : v ≤ w) :
    roundedValue p v ≤ roundedValue p w := by
  have hpow : (0 : ℚ) < 10 ^ p := by positivity
  unfold roundedValue scaledNearest
  by_cases hv : v < 0
  · by_cases hw : w < 0
    · rw [if_pos hv, if_pos hw, if_pos hv, if_pos hw, neg_le_neg_iff]
      apply div_le_div_of_nonneg_right _ (le_of_lt hpow)
      exact_mod_cast scaledNearest_mono p (-w) (-v) (by linarith)
    · rw [if_pos hv, if_neg hw, if_pos hv, if_neg hw]
      have h1 : (0 : ℚ) ≤ ((⌊-v * 10 ^ p + 1 / 2⌋).toNat : ℚ) / 10 ^ p := by positivity
      have h2 : (0 : ℚ) ≤ ((⌊w * 10 ^ p + 1 / 2⌋).toNat : ℚ) / 10 ^ p := by positivity
      linarith
  · have hw : ¬ w < 0 := by
      intro hw
      apply hv
      linarith
    rw [if_neg hv, if_neg hw, if_neg hv, if_neg hw]
    apply div_le_div_of_nonneg_right _ (le_of_lt hpow)
    exact_mod_cast scaledNearest_mono p v w h

/-! ## getYLabels -/

theorem tickValue_eq (n : Nat) (maxVal minVal : ℚ) (i : Nat) :
    tickValue n maxVal minVal i = minVal + (i : ℚ) / ((n : ℚ) - 1) * (maxVal - minVal) := by
  unfold tickValue
  ring

theorem getYLabels_getElem? (n : Nat) (maxVal minVal : ℚ) (p i : Nat) (hi : i < n) :
    (getYLabels n maxVal minVal p)[i]? = some (labelOf p (tickValue n maxVal minVal i)) := by
  rw [getYLabels_eq_map, List.getElem?_map, List.getElem?_range hi]
  rfl

theorem tickValue_strictMono (n : Nat) (maxVal minVal : ℚ) (hn : 2 ≤ n) (hlt : minVal < maxVal)
    (i j : Nat) (hij : i < j) :
    tickValue n maxVal minVal i < tickValue n maxVal minVal j := by
  have hn1 : (0 : ℚ) < (n : ℚ) - 1 := by
    have h2 : (2 : ℚ) ≤ (n : ℚ) := by exact_mod_cast hn
    linarith
  have hij2 : (i : ℚ) < (j : ℚ) := by exact_mod_cast hij
  have hd : (0 : ℚ) < maxVal - minVal := by linarith
  have h := tickValue_sub n maxVal minVal j i
  have hpos : 0 < ((j : ℚ) - (i : ℚ)) / ((n : ℚ) - 1) * (maxVal - minVal) :=
    mul_pos (div_pos (by linarith) hn1) hd
  linarith

/-- The labels on exact rationals with the fixed-point text of `toFixed`: their number,
the `i`-th label, the order and the end points of the values, and the order of the
numbers read back from the labels. -/
theorem getYLabels_exact_spec (n : Nat) (maxVal minVal : ℚ) (p : Nat) (hn : 2 ≤ n)
    (hlt : minVal < maxVal) :
    (getYLabels n maxVal minVal p).length = n ∧
    (∀ i : Nat, i < n → (getYLabels n maxVal minVal p)[i]? =
      some (labelOf p (minVal + (i : ℚ) / ((n : ℚ) - 1) * (maxVal - minVal)))) ∧
    (∀ i j : Nat, i < j → j < n →
      minVal + (i : ℚ) / ((n : ℚ) - 1) * (maxVal - minVal) <
        minVal + (j : ℚ) / ((n : ℚ) - 1) * (maxVal - minVal)) ∧
    minVal + ((0 : Nat) : ℚ) / ((n : ℚ) - 1) * (maxVal - minVal) = minVal ∧
    minVal + ((n - 1 : Nat) : ℚ) / ((n : ℚ) - 1) * (maxVal - minVal) = maxVal ∧
    (∀ i j : Nat, i ≤ j → j < n →
      ∃ a b : ℚ, ((getYLabels n maxVal minVal p)[i]?).bind parseFloat = some a ∧
        ((getYLabels n maxVal minVal p)[j]?).bind parseFloat = some b ∧ a ≤ b) := by
  have hn1 : ((n : ℚ) - 1) ≠ 0 := by
    have h2 : (2 : ℚ) ≤ (n : ℚ) := by exact_mod_cast hn
    intro h0
    linarith
  refine ⟨?_, ?_, ?_, ?_, ?_, ?_⟩
  · rw [getYLabels_eq_map]
    simp
  · intro i hi
    rw [getYLabels_getElem? n maxVal minVal p i hi, tickValue_eq]
  · intro i j hij _
    have h := tickValue_strictMono n maxVal minVal hn hlt i j hij
    rw [tickValue_eq, tickValue_eq] at h
    exact h
  · simp
  · have hc : (((n - 1 : Nat) : ℚ)) = (n : ℚ) - 1 := by
      rw [Nat.cast_sub (by omega)]
      simp
    rw [hc, div_self hn1]
    ring
  · intro i j hij hj
    refine ⟨roundedValue p (tickValue n maxVal minVal i),
      roundedValue p (tickValue n maxVal minVal j), ?_, ?_, ?_⟩
    · rw [getYLabels_getElem? n maxVal minVal p i (by omega)]
      exact parseFloat_labelOf p _
    · rw [getYLabels_getElem? n maxVal minVal p j hj]
      exact parseFloat_labelOf p _
    · apply roundedValue_mono
      rcases Nat.lt_or_eq_of_le hij with h | h
      · exact le_of_lt (tickValue_strictMono n maxVal minVal hn hlt i j h)
      · rw [h]

/-! ## commaFormat on a text with fraction digits -/

theorem split_at_sep (sep : Char) (a b : JSString) (ha : ∀ c ∈ a, c ≠ sep) :
    split sep (a ++ sep :: b) = a :: split sep b := by
  induction a with
  | nil => simp [split]
  | cons c a ih =>
    have hc : c ≠ sep := ha c (List.mem_cons_self c a)
    have ih2 := ih (fun x hx => ha x (List.mem_cons_of_mem c hx))
    simp [split, hc, ih2]

theorem padZeros_natStr_eq (p : Nat) (I F : JSString) (hp : 1 ≤ p)
    (hI : ∀ c ∈ I, isDigit c = true) (hlead : I = ['0'] ∨ (I ≠ [] ∧ I.head? ≠ some '0'))
    (hF : ∀ c ∈ F, isDigit c = true) (hFlen : F.length = p) :
    padZeros p (natStr (digitsNat (I ++ F))) = I ++ F := by
  have hIF : ∀ c ∈ I ++ F, isDigit c = true := by
    intro c hc
    rcases List.mem_append.1 hc with h | h
    · exact hI c h
    · exact hF c h
  apply digitsNat_inj _ _ (padZeros_digits p _ (natStr_digits _)) hIF
  · rw [padZeros_length, List.length_append, hFlen]
    rcases hlead with h0 | ⟨hne, hh⟩
    · have hlt : digitsNat (I ++ F) < 10 ^ p := by
        rw [h0, List.singleton_append, digitsNat_cons]
        have := digitsNat_lt F hF
        rw [hFlen] at this
        have hz : digitVal '0' = 0 := by decide
        rw [hz]
        simpa using this
      have hle := natStr_length_le _ p hp hlt
      rw [if_pos hle, h0]
      simp
      omega
    · cases I with
      | nil => exact absurd rfl hne
      | cons c I1 =>
        have hc := hI c (List.mem_cons_self c I1)
        have hcv : 1 ≤ digitVal c := by
          by_contra hlt
          have hz : digitVal c = 0 := by omega
          have := digitVal_eq_zero c hc hz
          rw [this] at hh
          simp at hh
        have hge : 10 ^ (I1.length + p) ≤ digitsNat ((c :: I1) ++ F) := by
          rw [List.cons_append, digitsNat_cons, List.length_append, hFlen]
          have hpos : 0 < 10 ^ (I1.length + p) := by positivity
          nlinarith
        have hlt : digitsNat ((c :: I1) ++ F) < 10 ^ (I1.length + p + 1) := by
          have := digitsNat_lt _ hIF
          simpa [List.length_append, hFlen, Nat.add_right_comm] using this
        have h1 := natStr_length_ge _ _ hge
        have h2 := natStr_length_le _ (I1.length + p + 1) (by omega) hlt
        have hgt : ¬ (natStr (digitsNat ((c :: I1) ++ F))).length ≤ p := by omega
        rw [if_neg hgt, List.length_cons]
        omega
  · rw [digitsNat_padZeros, digitsNat_natStr]

theorem pointed_natStr_eq (p : Nat) (I F : JSString) (hp : 1 ≤ p)
    (hI : ∀ c ∈ I, isDigit c = true) (hlead : I = ['0'] ∨ (I ≠ [] ∧ I.head? ≠ some '0'))
    (hF : ∀ c ∈ F, isDigit c = true) (hFlen : F.length = p) :
    pointed p (natStr (digitsNat (I ++ F))) = I ++ '.' :: F := by
  have hpad := padZeros_natStr_eq p I F hp hI hlead hF hFlen
  have hp0 : p ≠ 0 := by omega
  simp only [pointed, if_neg hp0, hpad]
  have hlen : (I ++ F).length - p = I.length := by
    rw [List.length_append, hFlen]
    omega
  rw [hlen]
  simp

/-! ## Rounding to binary64 -/

theorem pow2_eq (e : Int) : pow2 e = (2 : ℚ) ^ e := by
  unfold pow2
  by_cases h : 0 ≤ e
  · rw [if_pos h]
    conv_rhs => rw [← Int.toNat_of_nonneg h]
    rw [zpow_natCast]
  · rw [if_neg h]
    have h2 : 0 ≤ -e := by omega
    have h3 : e = -((-e).toNat : Int) := by
      rw [Int.toNat_of_nonneg h2]
      ring
    conv_rhs => rw [h3]
    rw [zpow_neg, zpow_natCast, one_div]

theorem pow2_pos (e : Int) : 0 < pow2 e := by
  rw [pow2_eq]
  exact zpow_pos (by norm_num) e

theorem pow2_mono (a b : Int) (h : a ≤ b) : pow2 a ≤ pow2 b := by
  rw [pow2_eq, pow2_eq]
  exact zpow_le_zpow_right₀ (by norm_num) h

theorem pow2_add (a b : Int) : pow2 (a + b) = pow2 a * pow2 b := by
  rw [pow2_eq, pow2_eq, pow2_eq]
  exact zpow_add₀ (by norm_num) a b

theorem bitLength_zero (fuel : Nat) : bitLength fuel 0 = 0 := by
  cases fuel <;> simp [bitLength]

theorem bitLength_bounds (fuel n : Nat) (hf : n ≤ fuel) (hn : n ≠ 0) :
    1 ≤ bitLength fuel n ∧ 2 ^ (bitLength fuel n - 1) ≤ n ∧ n < 2 ^ bitLength fuel n := by
  induction fuel generalizing n with
  | zero => omega
  | succ fuel ih =>
    simp only [bitLength, if_neg hn]
    by_cases h2 : n / 2 = 0
    · have h1 : n = 1 := by omega
      rw [h2, bitLength_zero, h1]
      simp
    · obtain ⟨hb1, hb2, hb3⟩ := ih (n / 2) (by omega) h2
      obtain ⟨b, hb⟩ : ∃ b, bitLength fuel (n / 2) = b + 1 := ⟨_, (Nat.sub_add_cancel hb1).symm⟩
      rw [hb] at hb2 hb3 ⊢
      simp only [Nat.add_sub_cancel] at hb2 ⊢
      rw [pow_succ] at hb3 ⊢
      rw [pow_succ 2 (b + 1), pow_succ 2 b]
      refine ⟨by omega, by omega, by omega⟩

theorem rat_abs_eq (q : ℚ) : |q| = (q.num.natAbs : ℚ) / (q.den : ℚ) := by
  conv_lhs => rw [← Rat.num_div_den q]
  rw [abs_div, Nat.cast_natAbs, Nat.abs_cast, Int.cast_abs]

theorem binaryExponent_le (q : ℚ) (hq : q ≠ 0) : pow2 (binaryExponent q) ≤ |q| := by
  unfold binaryExponent
  by_cases h : pow2 ((bitLength q.num.natAbs q.num.natAbs : Int) - (bitLength q.den q.den : Int)) ≤ |q|
  · rw [if_pos h]
    exact h
  · rw [if_neg h]
    have hnum : q.num.natAbs ≠ 0 := by
      intro h0
      apply hq
      have : q.num = 0 := Int.natAbs_eq_zero.1 h0
      exact Rat.zero_of_num_zero this
    have hden : q.den ≠ 0 := q.den_nz
    obtain ⟨ha1, ha2, _⟩ := bitLength_bounds q.num.natAbs q.num.natAbs (le_refl _) hnum
    obtain ⟨_, _, hb3⟩ := bitLength_bounds q.den q.den (le_refl _) hden
    generalize bitLength q.num.natAbs q.num.natAbs = la at ha1 ha2
    generalize bitLength q.den q.den = lb at hb3
    have hexp : (la : Int) - (lb : Int) - 1 = ((la - 1 : Nat) : Int) - (lb : Int) := by
      omega
    rw [hexp, pow2_eq, zpow_sub₀ (by norm_num), zpow_natCast, zpow_natCast, rat_abs_eq]
    have h1 : ((2 : ℚ) ^ (la - 1)) ≤ (q.num.natAbs : ℚ) := by exact_mod_cast ha2
    have h2 : (q.den : ℚ) ≤ (2 : ℚ) ^ lb := by exact_mod_cast le_of_lt hb3
    have hdpos : (0 : ℚ) < (q.den : ℚ) := by exact_mod_cast q.den_pos
    have hnpos : (0 : ℚ) ≤ (q.num.natAbs : ℚ) := by positivity
    exact div_le_div₀ hnpos h1 hdpos h2

theorem binaryExponent_lt (q : ℚ) (hq : q ≠ 0) : |q| < pow2 (binaryExponent q + 1) := by
  unfold binaryExponent
  have hnum : q.num.natAbs ≠ 0 := by
    intro h0
    apply hq
    have : q.num = 0 := Int.natAbs_eq_zero.1 h0
    exact Rat.zero_of_num_zero this
  have hden : q.den ≠ 0 := q.den_nz
  by_cases h : pow2 ((bitLength q.num.natAbs q.num.natAbs : Int) - (bitLength q.den q.den : Int)) ≤ |q|
  · rw [if_pos h]
    obtain ⟨_, _, ha3⟩ := bitLength_bounds q.num.natAbs q.num.natAbs (le_refl _) hnum
    obtain ⟨hb1, hb2, _⟩ := bitLength_bounds q.den q.den (le_refl _) hden
    generalize bitLength q.num.natAbs q.num.natAbs = la at ha3
    generalize bitLength q.den q.den = lb at hb1 hb2
    have hexp : (la : Int) - (lb : Int) + 1 = (la : Int) - ((lb - 1 : Nat) : Int) := by
      omega
    rw [hexp, pow2_eq, zpow_sub₀ (by norm_num), zpow_natCast, zpow_natCast, rat_abs_eq]
    have h1 : (q.num.natAbs : ℚ) < (2 : ℚ) ^ la := by exact_mod_cast ha3
    have h2 : ((2 : ℚ) ^ (lb - 1)) ≤ (q.den : ℚ) := by exact_mod_cast hb2
    have hppos : (0 : ℚ) < (2 : ℚ) ^ (lb - 1) := by positivity
    have hdpos : (0 : ℚ) < (q.den : ℚ) := by exact_mod_cast q.den_pos
    calc (q.num.natAbs : ℚ) / (q.den : ℚ)
        ≤ (q.num.natAbs : ℚ) / (2 : ℚ) ^ (lb - 1) :=
          div_le_div_of_nonneg_left (by positivity) hppos h2
      _ < (2 : ℚ) ^ la / (2 : ℚ) ^ (lb - 1) := by
          apply div_lt_div_of_pos_right h1 hppos
  · rw [if_neg h]
    have : (bitLength q.num.natAbs q.num.natAbs : Int) - (bitLength q.den q.den : Int) - 1 + 1 =
        (bitLength q.num.natAbs q.num.natAbs : Int) - (bitLength q.den q.den : Int) := by ring
    rw [this]
    exact lt_of_not_le h

theorem roundHalfEven_error (y : ℚ) : |(roundHalfEven y : ℚ) - y| ≤ 1 / 2 := by
  have h1 : (⌊y⌋ : ℚ) ≤ y := Int.floor_le y
  have h2 : y < (⌊y⌋ : ℚ) + 1 := Int.lt_floor_add_one y
  unfold roundHalfEven
  by_cases c1 : y - ⌊y⌋ < 1 / 2
  · rw [if_pos c1, abs_le]
    constructor <;> linarith
  · rw [if_neg c1]
    by_cases c2 : 1 / 2 < y - ⌊y⌋
    · rw [if_pos c2, abs_le]
      push_cast
      constructor <;> linarith
    · rw [if_neg c2]
      by_cases c3 : ⌊y⌋ % 2 = 0
      · rw [if_pos c3, abs_le]
        constructor <;> linarith
      · rw [if_neg c3, abs_le]
        push_cast
        constructor <;> linarith

theorem roundHalfEven_nonneg (y : ℚ) (hy : 0 ≤ y) : 0 ≤ roundHalfEven y := by
  have h0 : (0 : Int) ≤ ⌊y⌋ := Int.floor_nonneg.2 hy
  unfold roundHalfEven
  split_ifs <;> omega

theorem f64_zero : f64 0 = some 0 := by
  simp [f64]

theorem f64_of_lt (q : ℚ) (hq : q ≠ 0) (hlt : |q| < pow2 1023) :
    ∃ r : ℚ, f64 q = some r ∧
      |r - q| ≤ pow2 (max (binaryExponent q) (-1022) - 52) / 2 ∧
      (0 < q → 0 ≤ r) ∧ (q < 0 → r ≤ 0) := by
  have hu := pow2_pos (max (binaryExponent q) (-1022) - 52)
  have herr := roundHalfEven_error (|q| / pow2 (max (binaryExponent q) (-1022) - 52))
  have hnn := roundHalfEven_nonneg (|q| / pow2 (max (binaryExponent q) (-1022) - 52))
    (div_nonneg (abs_nonneg q) (le_of_lt hu))
  have hule : pow2 (max (binaryExponent q) (-1022) - 52) ≤ pow2 1023 := by
    rcases le_total (binaryExponent q) (-1022) with h | h
    · rw [max_eq_right h]
      exact pow2_mono _ _ (by norm_num)
    · rw [max_eq_left h]
      have h1 := binaryExponent_le q hq
      have h2 : pow2 (binaryExponent q - 52) ≤ pow2 (binaryExponent q) :=
        pow2_mono _ _ (by omega)
      linarith
  unfold f64
  rw [if_neg hq]
  generalize pow2 (max (binaryExponent q) (-1022) - 52) = u at hu herr hnn hule ⊢
  generalize roundHalfEven (|q| / u) = m at herr hnn ⊢
  have hmq : (0 : ℚ) ≤ (m : ℚ) := by exact_mod_cast hnn
  have hdist : abs ((m : ℚ) * u - abs q) ≤ u / 2 := by
    have e : (m : ℚ) * u - |q| = ((m : ℚ) - |q| / u) * u := by
      field_simp
    rw [e, abs_mul, abs_of_pos hu]
    have := mul_le_mul_of_nonneg_right herr (le_of_lt hu)
    linarith
  have hfin : ¬ pow2 1024 ≤ (m : ℚ) * u := by
    have h1024 : pow2 1024 = 2 * pow2 1023 := by
      rw [show (1024 : Int) = 1 + 1023 by norm_num, pow2_add]
      norm_num [pow2]
    rw [h1024]
    have := (abs_le.1 hdist).2
    linarith
  have hr0 : (0 : ℚ) ≤ (m : ℚ) * u := mul_nonneg hmq (le_of_lt hu)
  rw [if_neg hfin]
  by_cases hneg : q < 0
  · rw [if_pos hneg]
    refine ⟨_, rfl, ?_, fun h => by linarith, fun _ => by linarith⟩
    rw [abs_of_neg hneg] at hdist
    rw [show -((m : ℚ) * u) - q = -((m : ℚ) * u - -q) by ring, abs_neg]
    exact hdist
  · rw [if_neg hneg]
    refine ⟨_, rfl, ?_, fun _ => hr0, fun h => absurd h hneg⟩
    rw [abs_of_nonneg (le_of_not_lt hneg)] at hdist
    exact hdist

theorem f64_relative (q : ℚ) (hq : q ≠ 0) (hnormal : pow2 (-1022) ≤ |q|) :
    pow2 (max (binaryExponent q) (-1022) - 52) / 2 ≤ |q| * pow2 (-53) := by
  have h1 := binaryExponent_le q hq
  have hE : pow2 (max (binaryExponent q) (-1022)) ≤ |q| := by
    rcases le_total (binaryExponent q) (-1022) with h | h
    · rw [max_eq_right h]
      exact hnormal
    · rw [max_eq_left h]
      exact h1
  have hsplit : pow2 (max (binaryExponent q) (-1022) - 52) / 2 =
      pow2 (max (binaryExponent q) (-1022)) * pow2 (-53) := by
    rw [show max (binaryExponent q) (-1022) - 52 = max (binaryExponent q) (-1022) + (-52) by ring,
      pow2_add, show (-53 : Int) = -52 + -1 by norm_num, pow2_add]
    have : pow2 (-1) = 1 / 2 := by norm_num [pow2]
    rw [this]
    ring
  rw [hsplit]
  exact mul_le_mul_of_nonneg_right hE (le_of_lt (pow2_pos _))

/-! ## Zero-width ranges on the numbers of the platform -/

theorem pow2_1023_gt_one : (1 : ℚ) < pow2 1023 := by
  have h0 : pow2 0 = 1 := by norm_num [pow2]
  have h1 : pow2 1 = 2 := by norm_num [pow2]
  have h2 := pow2_mono 1 1023 (by norm_num)
  linarith

theorem f64_unit_interval (a : ℚ) (h0 : 0 ≤ a) (h1 : a ≤ 1) : ∃ r : ℚ, f64 a = some r := by
  by_cases ha : a = 0
  · exact ⟨0, by rw [ha]; exact f64_zero⟩
  · have hlt : |a| < pow2 1023 := by
      rw [abs_of_nonneg h0]
      have := pow2_1023_gt_one
      linarith
    obtain ⟨r, hr, _⟩ := f64_of_lt a ha hlt
    exact ⟨r, hr⟩

theorem Platform.tickValue_same (et : ℚ → JSString) (n : Nat) (v : ℚ) (hn : 2 ≤ n)
    (hv : f64 v = some v) (i : Nat) (hi : i < n) :
    Platform.tickValue (binary64 et) n v v i = some v := by
  have hn2 : (2 : ℚ) ≤ (n : ℚ) := by exact_mod_cast hn
  have hn1 : ((n : ℚ) - 1) ≠ 0 := by
    intro h0
    linarith
  have hpos : (0 : ℚ) < (n : ℚ) - 1 := by linarith
  have hi2 : (i : ℚ) ≤ (n : ℚ) - 1 := by
    have : i + 1 ≤ n := hi
    have h3 : ((i + 1 : Nat) : ℚ) ≤ (n : ℚ) := by exact_mod_cast this
    push_cast at h3
    linarith
  obtain ⟨r, hr⟩ := f64_unit_interval ((i : ℚ) / ((n : ℚ) - 1))
    (div_nonneg (by positivity) (le_of_lt hpos)) ((div_le_one hpos).2 hi2)
  simp only [Platform.tickValue, if_neg hn1, binary64, hr, Option.some_bind, sub_self,
    f64_zero, mul_zero, zero_add, hv]

theorem Platform.getYLabelsFrom_const (N : Numbers) (n : Nat) (maxVal minVal : ℚ) (p : Nat)
    (v : ℚ) (L : JSString) (hL : Platform.labelOf N p v = Outcome.ok L) (k i : Nat)
    (htick : ∀ j : Nat, i ≤ j → j < i + k → Platform.tickValue N n maxVal minVal j = some v) :
    Platform.getYLabelsFrom N n maxVal minVal p k i = Outcome.ok (List.replicate k L) := by
  induction k generalizing i with
  | zero => rfl
  | succ k ih =>
    have h1 := htick i (le_refl _) (by omega)
    have h2 := ih (i + 1) (fun j hj1 hj2 => htick j (by omega) (by omega))
    simp only [Platform.getYLabelsFrom, h1, hL, h2, List.replicate_succ]

theorem Platform.getYLabelsFrom_rangeError (N : Numbers) (n : Nat) (maxVal minVal : ℚ)
    (p : Nat) (v : ℚ) (hL : Platform.labelOf N p v = Outcome.rangeError) (k i : Nat)
    (htick : Platform.tickValue N n maxVal minVal i = some v) :
    Platform.getYLabelsFrom N n maxVal minVal p (k + 1) i = Outcome.rangeError := by
  simp only [Platform.getYLabelsFrom, htick, hL]

theorem Platform.labelOf_binary64_ok (et : ℚ → JSString) (p : Nat) (v : ℚ) (hp : p ≤ 100) :
    ∃ L : JSString, Platform.labelOf (binary64 et) p v = Outcome.ok L := by
  unfold Platform.labelOf
  by_cases hv : v = 0
  · exact ⟨['0'], by rw [if_pos hv]⟩
  · rw [if_neg hv]
    have hd : Platform.digitsAllowed (binary64 et) p = true := by
      simp [Platform.digitsAllowed, binary64, hp]
    unfold Platform.toFixed
    rw [hd]
    by_cases he : Platform.exponentNotation (binary64 et) v = true
    · simp [he]
    · simp [he]

theorem Platform.labelOf_binary64_rangeError (et : ℚ → JSString) (p : Nat) (v : ℚ)
    (hp : 100 < p) (hv : v ≠ 0) :
    Platform.labelOf (binary64 et) p v = Outcome.rangeError := by
  have hd : Platform.digitsAllowed (binary64 et) p = false := by
    simp [Platform.digitsAllowed, binary64, hp]
  simp [Platform.labelOf, hv, Platform.toFixed, hd]

/-- C8 as stated fails: with two labels and `minVal = maxVal = 3` the call
`getYLabels(3, 3, 101)` does not return labels, `toFixed(101)` throws a `RangeError`; the
loop of `drawYLabels` started at precision 0 ends with that error. -/
theorem getYLabels_zero_width_counterexample :
    Platform.getYLabels (binary64 fun _ => []) 2 3 3 101 = Outcome.rangeError ∧
    Platform.escalate (binary64 fun _ => []) 2 3 3 102 0 = Outcome.rangeError := by
  refine ⟨by decide!, by decide!⟩

/-- C8, amended: for a zero-width range `minVal = maxVal = v` (a finite number of the
platform) and `numYLabels ≥ 2`, `getYLabels` returns `numYLabels` copies of one string
at every precision up to 100, and at every precision when `v = 0`, so
`containsDuplicateLabels` is `true` there; the escalation loop of `drawYLabels`
never reaches its exit: for `v = 0` it runs on whatever the number of iterations
allowed, for `v ≠ 0` it is ended by the `RangeError` of `toFixed` as soon as the
precision passes 100, which `getYLabels` throws at every precision above 100. -/
theorem escalate_zero_width_platform (et : ℚ → JSString) (numYLabels : Nat) (v : ℚ)
    (hn : 2 ≤ numYLabels) (hv : f64 v = some v) :
    (∀ precision : Nat, precision ≤ 100 ∨ v = 0 →
      ∃ L : JSString,
        Platform.getYLabels (binary64 et) numYLabels v v precision =
          Outcome.ok (List.replicate numYLabels L) ∧
        containsDuplicateLabels (List.replicate numYLabels L) = true) ∧
    (∀ (fuel precision : Nat) (r : Nat × List JSString),
      Platform.escalate (binary64 et) numYLabels v v fuel precision ≠ Outcome.ok r) ∧
    (v = 0 → ∀ fuel precision : Nat,
      Platform.escalate (binary64 et) numYLabels v v fuel precision = Outcome.outOfFuel) ∧
    (v ≠ 0 →
      (∀ precision : Nat, 100 < precision →
        Platform.getYLabels (binary64 et) numYLabels v v precision = Outcome.rangeError) ∧
      ∀ fuel precision : Nat,
        Platform.escalate (binary64 et) numYLabels v v fuel precision =
          if 0 < fuel ∧ 101 < fuel + precision then Outcome.rangeError
          else Outcome.outOfFuel) := by
  have htick := Platform.tickValue_same et numYLabels v hn hv
  have hlabels : ∀ precision : Nat, precision ≤ 100 ∨ v = 0 →
      ∃ L : JSString,
        Platform.getYLabels (binary64 et) numYLabels v v precision =
          Outcome.ok (List.replicate numYLabels L) ∧
        containsDuplicateLabels (List.replicate numYLabels L) = true := by
    intro precision hp
    have hL : ∃ L : JSString, Platform.labelOf (binary64 et) precision v = Outcome.ok L := by
      rcases hp with hp | hp
      · exact Platform.labelOf_binary64_ok et precision v hp
      · exact ⟨['0'], by simp [Platform.labelOf, hp]⟩
    obtain ⟨L, hL⟩ := hL
    refine ⟨L, ?_, containsDuplicateLabels_replicate L numYLabels hn⟩
    exact Platform.getYLabelsFrom_const (binary64 et) numYLabels v v precision v L hL
      numYLabels 0 (fun j _ hj => htick j (by omega))
  have hthrow : v ≠ 0 → ∀ precision : Nat, 100 < precision →
      Platform.getYLabels (binary64 et) numYLabels v v precision = Outcome.rangeError := by
    intro hv0 precision hp
    obtain ⟨k, hk⟩ : ∃ k, numYLabels = k + 1 := ⟨numYLabels - 1, by omega⟩
    unfold Platform.getYLabels
    rw [hk]
    apply Platform.getYLabelsFrom_rangeError (binary64 et) (k + 1) v v precision v
      (Platform.labelOf_binary64_rangeError et precision v hp hv0) k 0
    rw [← hk]
    exact htick 0 (by omega)
  have hzero : v = 0 → ∀ fuel precision : Nat,
      Platform.escalate (binary64 et) numYLabels v v fuel precision = Outcome.outOfFuel := by
    intro hv0 fuel
    induction fuel with
    | zero => intro precision; rfl
    | succ fuel ih =>
      intro precision
      obtain ⟨L, h1, h2⟩ := hlabels precision (Or.inr hv0)
      simp only [Platform.escalate, h1, h2, if_true, ih]
  have hnonzero : v ≠ 0 → ∀ fuel precision : Nat,
      Platform.escalate (binary64 et) numYLabels v v fuel precision =
        if 0 < fuel ∧ 101 < fuel + precision then Outcome.rangeError
        else Outcome.outOfFuel := by
    intro hv0 fuel
    induction fuel with
    | zero =>
      intro precision
      simp [Platform.escalate]
    | succ fuel ih =>
      intro precision
      by_cases hp : precision ≤ 100
      · obtain ⟨L, h1, h2⟩ := hlabels precision (Or.inl hp)
        simp only [Platform.escalate, h1, h2, if_true, ih]
        by_cases hc : 0 < fuel ∧ 101 < fuel + (precision + 1)
        · rw [if_pos hc, if_pos ⟨by omega, by omega⟩]
        · rw [if_neg hc, if_neg (by omega)]
      · have h1 := hthrow hv0 precision (by omega)
        simp only [Platform.escalate, h1]
        rw [if_pos ⟨by omega, by omega⟩]
  refine ⟨hlabels, ?_, hzero, fun hv0 => ⟨hthrow hv0, hnonzero hv0⟩⟩
  intro fuel precision r
  by_cases hv0 : v = 0
  · rw [hzero hv0]
    simp
  · rw [hnonzero hv0]
    split_ifs <;> simp

/-- Witness for C8 (amended): the range `[3, 3]` with two labels. -/
theorem escalate_zero_width_platform_witness :
    ((2 ≤ 2) ∧ f64 3 = some 3) ∧
    (∀ fuel precision : Nat,
      Platform.escalate (binary64 fun _ => []) 2 3 3 fuel precision =
        if 0 < fuel ∧ 101 < fuel + precision then Outcome.rangeError
        else Outcome.outOfFuel) ∧
    Platform.getYLabels (binary64 fun _ => []) 2 3 3 100 =
      Outcome.ok (List.replicate 2 (toFixed 100 3)) :=
  ⟨⟨le_refl 2, by decide!⟩,
    ((escalate_zero_width_platform (fun _ => []) 2 3 (le_refl 2) (by decide!)).2.2.2
      (by norm_num)).2,
    by decide!⟩

/-! ## The duplicate-avoidance loop on binary64 tick values -/

theorem Platform.labelOf_unlimited (p : Nat) (v : ℚ) :
    Platform.labelOf binary64Unlimited p v = Outcome.ok (Elroi.labelOf p v) := by
  unfold Platform.labelOf Elroi.labelOf
  by_cases hv : v = 0
  · simp [hv]
  · simp [hv, Platform.toFixed, Platform.digitsAllowed, Platform.exponentNotation,
      binary64Unlimited]

theorem Platform.getYLabelsFrom_map (N : Numbers) (n : Nat) (maxVal minVal : ℚ) (p : Nat)
    (vals : Nat → ℚ) (lab : ℚ → JSString)
    (hlab : ∀ v : ℚ, Platform.labelOf N p v = Outcome.ok (lab v)) (k i : Nat)
    (htick : ∀ j : Nat, i ≤ j → j < i + k →
      Platform.tickValue N n maxVal minVal j = some (vals j)) :
    Platform.getYLabelsFrom N n maxVal minVal p k i =
      Outcome.ok ((List.range' i k).map fun j => lab (vals j)) := by
  induction k generalizing i with
  | zero => rfl
  | succ k ih =>
    have h1 := htick i (le_refl _) (by omega)
    have h2 := ih (i + 1) (fun j hj1 hj2 => htick j (by omega) (by omega))
    simp only [Platform.getYLabelsFrom, h1, hlab, h2, List.range'_succ, List.map_cons]

theorem uniform_threshold (R : Nat → Nat → Prop) (n : Nat)
    (h : ∀ i : Nat, i < n → ∃ P : Nat, ∀ p : Nat, P ≤ p → R i p) :
    ∃ P : Nat, ∀ i : Nat, i < n → ∀ p : Nat, P ≤ p → R i p := by
  induction n with
  | zero => exact ⟨0, fun i hi => absurd hi (Nat.not_lt_zero i)⟩
  | succ n ih =>
    obtain ⟨P1, hP1⟩ := ih (fun i hi => h i (by omega))
    obtain ⟨P2, hP2⟩ := h n (by omega)
    refine ⟨max P1 P2, fun i hi p hp => ?_⟩
    by_cases hin : i = n
    · rw [hin]
      exact hP2 p (le_trans (le_max_right _ _) hp)
    · exact hP1 i (by omega) p (le_trans (le_max_left _ _) hp)

theorem exists_separating_precision (v w : ℚ) (h : v ≠ w) :
    ∃ P : Nat, ∀ p : Nat, P ≤ p → Elroi.labelOf p v ≠ Elroi.labelOf p w := by
  have hpos : (0 : ℚ) < |v - w| := abs_pos.2 (sub_ne_zero.2 h)
  obtain ⟨P, hP⟩ := pow_unbounded_of_one_lt (1 / |v - w|) (by norm_num : (1 : ℚ) < 10)
  refine ⟨P + 1, fun p hp => ?_⟩
  have hpow : (10 : ℚ) ^ P ≤ 10 ^ p := pow_le_pow_right₀ (by norm_num) (by omega)
  have h1 : 1 < |v - w| * 10 ^ P := by
    rw [div_lt_iff₀ hpos] at hP
    linarith
  have h2 : |v - w| * 10 ^ P ≤ |v - w| * 10 ^ p :=
    mul_le_mul_of_nonneg_left hpow (le_of_lt hpos)
  exact labelOf_ne p v w (by omega) (by linarith)

theorem exists_precision_nodup_of_distinct (n : Nat) (vals : Nat → ℚ)
    (hdist : ∀ i j : Nat, i < n → j < n → i ≠ j → vals i ≠ vals j) :
    ∃ P : Nat, ∀ p : Nat, P ≤ p →
      ((List.range n).map fun j => Elroi.labelOf p (vals j)).Nodup := by
  obtain ⟨P, hP⟩ := uniform_threshold
    (fun i p => ∀ j : Nat, j < n → i ≠ j →
      Elroi.labelOf p (vals i) ≠ Elroi.labelOf p (vals j)) n
    (by
      intro i hi
      obtain ⟨Q, hQ⟩ := uniform_threshold
        (fun j p => i ≠ j → Elroi.labelOf p (vals i) ≠ Elroi.labelOf p (vals j)) n
        (by
          intro j hj
          by_cases hij : i = j
          · exact ⟨0, fun p _ h => absurd hij h⟩
          · obtain ⟨Q, hQ⟩ := exists_separating_precision (vals i) (vals j)
              (hdist i j hi hj hij)
            exact ⟨Q, fun p hp _ => hQ p hp⟩)
      exact ⟨Q, fun p hp j hj hij => hQ j hj p hp hij⟩)
  refine ⟨P, fun p hp => ?_⟩
  refine List.Nodup.map_on ?_ (List.nodup_range n)
  intro i hi j hj hlab
  by_contra hij
  exact hP i (List.mem_range.1 hi) p hp j (List.mem_range.1 hj) hij hlab

theorem Platform.escalate_reaches (N : Numbers) (n : Nat) (maxVal minVal : ℚ)
    (labels : Nat → List JSString)
    (hget : ∀ p : Nat, Platform.getYLabels N n maxVal minVal p = Outcome.ok (labels p))
    (P : Nat) (hP : containsDuplicateLabels (labels P) = false) :
    ∀ (d p0 : Nat), P - p0 = d → p0 ≤ P →
      ∃ p : Nat, p0 ≤ p ∧ p ≤ P ∧ containsDuplicateLabels (labels p) = false ∧
        (∀ q : Nat, p0 ≤ q → q < p → containsDuplicateLabels (labels q) = true) ∧
        ∀ fuel : Nat, p - p0 < fuel →
          Platform.escalate N n maxVal minVal fuel p0 = Outcome.ok (p, labels p) := by
  intro d
  induction d with
  | zero =>
    intro p0 hd hle
    have hp : p0 = P := by omega
    subst hp
    refine ⟨p0, le_refl _, le_refl _, hP, fun q h1 h2 => by omega, ?_⟩
    intro fuel hf
    obtain ⟨f, rfl⟩ : ∃ f, fuel = f + 1 := ⟨fuel - 1, by omega⟩
    simp [Platform.escalate, hget, hP]
  | succ d ih =>
    intro p0 hd hle
    by_cases hdup : containsDuplicateLabels (labels p0) = true
    · obtain ⟨p, h1, h2, h3, h4, h5⟩ := ih (p0 + 1) (by omega) (by omega)
      refine ⟨p, by omega, h2, h3, ?_, ?_⟩
      · intro q hq1 hq2
        by_cases hq : q = p0
        · rw [hq]
          exact hdup
        · exact h4 q (by omega) hq2
      · intro fuel hf
        obtain ⟨f, rfl⟩ : ∃ f, fuel = f + 1 := ⟨fuel - 1, by omega⟩
        have := h5 f (by omega)
        simp [Platform.escalate, hget, hdup, this]
    · have hfalse : containsDuplicateLabels (labels p0) = false := by
        simpa using hdup
      refine ⟨p0, le_refl _, hle, hfalse, fun q h1 h2 => by omega, ?_⟩
      intro fuel hf
      obtain ⟨f, rfl⟩ : ∃ f, fuel = f + 1 := ⟨fuel - 1, by omega⟩
      simp [Platform.escalate, hget, hfalse]

/-- C7 as stated fails: with three labels, `minVal = 1e16` and `maxVal = 1e16 + 2` (two
different numbers of the platform) the values of ticks 0 and 1 are the same
binary64 number `1e16`, so their labels are equal at every precision and the
loop does not exit, whatever the number of iterations allowed, even with
`toFixed` taken without a digit limit. -/
theorem escalate_binary64_counterexample :
    f64 (10 ^ 16) = some (10 ^ 16) ∧ f64 (10 ^ 16 + 2) = some (10 ^ 16 + 2) ∧
    (10 ^ 16 : ℚ) ≠ 10 ^ 16 + 2 ∧
    Platform.tickValue binary64Unlimited 3 (10 ^ 16 + 2) (10 ^ 16) 0 = some (10 ^ 16) ∧
    Platform.tickValue binary64Unlimited 3 (10 ^ 16 + 2) (10 ^ 16) 1 = some (10 ^ 16) ∧
    (∀ fuel p0 : Nat,
      Platform.escalate binary64Unlimited 3 (10 ^ 16 + 2) (10 ^ 16) fuel p0 =
        Outcome.outOfFuel) := by
  have h0 : Platform.tickValue binary64Unlimited 3 (10 ^ 16 + 2) (10 ^ 16) 0 =
      some (10 ^ 16) := by decide!
  have h1 : Platform.tickValue binary64Unlimited 3 (10 ^ 16 + 2) (10 ^ 16) 1 =
      some (10 ^ 16) := by decide!
  have h2 : Platform.tickValue binary64Unlimited 3 (10 ^ 16 + 2) (10 ^ 16) 2 =
      some (10 ^ 16 + 2) := by decide!
  refine ⟨by decide!, by decide!, by norm_num, h0, h1, ?_⟩
  have hget : ∀ p : Nat,
      Platform.getYLabels binary64Unlimited 3 (10 ^ 16 + 2) (10 ^ 16) p =
        Outcome.ok [Elroi.labelOf p (10 ^ 16), Elroi.labelOf p (10 ^ 16),
          Elroi.labelOf p (10 ^ 16 + 2)] := by
    intro p
    simp only [Platform.getYLabels, Platform.getYLabelsFrom, h0, h1, h2,
      Platform.labelOf_unlimited]
  intro fuel
  induction fuel with
  | zero => intro p0; rfl
  | succ fuel ih =>
    intro p0
    simp [Platform.escalate, hget, containsDuplicateLabels, innerScan, ih]

/-- C7, amended: when the tick values the code computes in binary64 are finite and
pairwise distinct (with `toFixed` taken as exact fixed-point rounding without a
digit limit), the duplicate-avoidance loop of `drawYLabels` terminates for every
starting precision `p0`: there is a precision `p ≥ p0`, the first one from `p0` on
without duplicates, such that with more than `p - p0` iterations allowed the loop
exits with precision `p` and the labels `getYLabels(maxVal, minVal, p)`, which are
pairwise distinct, so that `containsDuplicateLabels` is `false` on exit. -/
theorem escalate_terminates_platform (n : Nat) (maxVal minVal : ℚ) (p0 : Nat)
    (hfin : ∀ i : Nat, i < n →
      (Platform.tickValue binary64Unlimited n maxVal minVal i).isSome = true)
    (hdist : ∀ i j : Nat, i < j → j < n →
      Platform.tickValue binary64Unlimited n maxVal minVal i ≠
        Platform.tickValue binary64Unlimited n maxVal minVal j) :
    ∃ (p : Nat) (labels : List JSString), p0 ≤ p ∧
      Platform.getYLabels binary64Unlimited n maxVal minVal p = Outcome.ok labels ∧
      labels.Pairwise (fun a b => a ≠ b) ∧
      containsDuplicateLabels labels = false ∧
      (∀ q : Nat, p0 ≤ q → q < p →
        ∃ l : List JSString,
          Platform.getYLabels binary64Unlimited n maxVal minVal q = Outcome.ok l ∧
          containsDuplicateLabels l = true) ∧
      ∀ fuel : Nat, p - p0 < fuel →
        Platform.escalate binary64Unlimited n maxVal minVal fuel p0 =
          Outcome.ok (p, labels) := by
  have htick : ∀ j : Nat, j < n →
      Platform.tickValue binary64Unlimited n maxVal minVal j =
        some ((Platform.tickValue binary64Unlimited n maxVal minVal j).getD 0) := by
    intro j hj
    have := hfin j hj
    cases h : Platform.tickValue binary64Unlimited n maxVal minVal j with
    | none => rw [h] at this; simp at this
    | some v => rfl
  have hvals : ∀ i j : Nat, i < n → j < n → i ≠ j →
      (Platform.tickValue binary64Unlimited n maxVal minVal i).getD 0 ≠
        (Platform.tickValue binary64Unlimited n maxVal minVal j).getD 0 := by
    intro i j hi hj hij heq
    have hne : Platform.tickValue binary64Unlimited n maxVal minVal i ≠
        Platform.tickValue binary64Unlimited n maxVal minVal j := by
      rcases Nat.lt_or_gt_of_ne hij with h | h
      · exact hdist i j h hj
      · exact fun e => hdist j i h hi e.symm
    apply hne
    rw [htick i hi, htick j hj, heq]
  have hget : ∀ p : Nat, Platform.getYLabels binary64Unlimited n maxVal minVal p =
      Outcome.ok ((List.range n).map fun j =>
        Elroi.labelOf p ((Platform.tickValue binary64Unlimited n maxVal minVal j).getD 0)) := by
    intro p
    rw [Platform.getYLabels, Platform.getYLabelsFrom_map binary64Unlimited n maxVal minVal p
      (fun j => (Platform.tickValue binary64Unlimited n maxVal minVal j).getD 0)
      (Elroi.labelOf p) (Platform.labelOf_unlimited p) n 0
      (fun j _ hj => htick j (by omega)), List.range_eq_range']
  obtain ⟨P, hP⟩ := exists_precision_nodup_of_distinct n _ hvals
  have hfalse := (containsDuplicateLabels_eq_false_iff _).2 (hP (max P p0) (le_max_left _ _))
  obtain ⟨p, h1, _, h3, h4, h5⟩ :=
    Platform.escalate_reaches binary64Unlimited n maxVal minVal _ hget (max P p0) hfalse _ p0 rfl
      (le_max_right _ _)
  exact ⟨p, _, h1, hget p, (containsDuplicateLabels_eq_false_iff _).1 h3, h3,
    fun q hq1 hq2 => ⟨_, hget q, h4 q hq1 hq2⟩, h5⟩

/-- Witness for C7 (amended): `maxVal = 1`, `minVal = 0`, five labels, starting precision 0;
the binary64 tick values are `0, 1/4, 1/2, 3/4, 1`, the labels collide at precision 0
and the loop exits at precision 1. -/
theorem escalate_terminates_platform_witness :
    (∃ (p : Nat) (labels : List JSString), 0 ≤ p ∧
      Platform.getYLabels binary64Unlimited 5 1 0 p = Outcome.ok labels ∧
      labels.Pairwise (fun a b => a ≠ b) ∧
      containsDuplicateLabels labels = false ∧
      (∀ q : Nat, 0 ≤ q → q < p →
        ∃ l : List JSString,
          Platform.getYLabels binary64Unlimited 5 1 0 q = Outcome.ok l ∧
          containsDuplicateLabels l = true) ∧
      ∀ fuel : Nat, p - 0 < fuel →
        Platform.escalate binary64Unlimited 5 1 0 fuel 0 = Outcome.ok (p, labels)) ∧
    Platform.getYLabels binary64Unlimited 5 1 0 0 =
      Outcome.ok [['0'], ['0'], ['1'], ['1'], ['1']] ∧
    Platform.escalate binary64Unlimited 5 1 0 2 0 =
      Outcome.ok (1, [['0'], ['0', '.', '3'], ['0', '.', '5'], ['0', '.', '8'],
        ['1', '.', '0']]) :=
  ⟨escalate_terminates_platform 5 1 0 0
      (by intro i hi; interval_cases i <;> decide!)
      (by intro i j hij hj; interval_cases j <;> interval_cases i <;> decide!),
    by decide!, by decide!⟩

/-! ## Reading numbers on the platform -/

theorem isStrWhiteSpace_digit (c : Char) (h : isDigit c = true) :
    Platform.isStrWhiteSpace c = false := by
  rcases isDigit_cases c h with h | h | h | h | h | h | h | h | h | h <;> subst h <;> decide

theorem digit_ne_I (c : Char) (h : isDigit c = true) : ('I' == c) = false := by
  rcases isDigit_cases c h with h | h | h | h | h | h | h | h | h | h <;> subst h <;> decide

theorem Platform.parseFloat_digit (N : Numbers) (c : Char) (r : JSString)
    (hc : isDigit c = true) :
    Platform.parseFloat N (c :: r) = Platform.unsignedNumber N (c :: r) := by
  have hw := isStrWhiteSpace_digit c hc
  have hsgn := digit_ne_sign c hc
  simp [Platform.parseFloat, List.dropWhile, hw, hsgn.1, hsgn.2]

theorem Platform.parseFloat_negative (N : Numbers) (s : JSString) :
    Platform.parseFloat N ('-' :: s) = Platform.negate (Platform.unsignedNumber N s) := by
  have hw : Platform.isStrWhiteSpace '-' = false := by decide
  simp [Platform.parseFloat, List.dropWhile, hw]

theorem Platform.unsignedNumber_digit (N : Numbers) (c : Char) (r : JSString) (q : ℚ)
    (hc : isDigit c = true) (hlit : unsignedLiteral (c :: r) = some q) :
    Platform.unsignedNumber N (c :: r) =
      match N.round q with
      | some v => JSNumber.finite v
      | none => JSNumber.infinity false := by
  have hI := digit_ne_I c hc
  simp [Platform.unsignedNumber, List.isPrefixOf, hI, hlit]

theorem Platform.parseFloat_toFixed_exact (et : ℚ → JSString) (p : Nat) (x : ℚ) :
    Platform.parseFloat (exactReals et) (Elroi.toFixed p x) =
      JSNumber.finite (roundedValue p x) := by
  obtain ⟨h1, c, r, h2, h3⟩ := unsignedLiteral_pointed_natStr p (scaledNearest p x)
  rw [h2] at h1
  have hnum := Platform.unsignedNumber_digit (exactReals et) c r _ h3 h1
  unfold Elroi.toFixed roundedValue
  by_cases hx : x < 0
  · rw [if_pos hx, if_pos hx]
    simp only [List.singleton_append]
    rw [Platform.parseFloat_negative, h2, hnum]
    rfl
  · rw [if_neg hx, if_neg hx, List.nil_append, h2, Platform.parseFloat_digit _ c r h3, hnum]
    rfl

theorem Platform.parseFloat_labelOf_exact (et : ℚ → JSString) (p : Nat) (v : ℚ) :
    Platform.parseFloat (exactReals et) (Elroi.labelOf p v) =
      JSNumber.finite (roundedValue p v) := by
  have hzero : Platform.parseFloat (exactReals et) ['0'] = JSNumber.finite 0 := by
    rw [Platform.parseFloat_digit _ '0' [] (by decide),
      Platform.unsignedNumber_digit (exactReals et) '0' [] 0 (by decide)
        (by rw [unsignedLiteral_digits ['0'] (by decide) (by decide)]; simp [digitsNat]; decide)]
    rfl
  have hold := parseFloat_labelOf p v
  unfold Elroi.labelOf at hold ⊢
  by_cases hv : v = 0
  · subst hv
    simp only [if_true]
    rw [if_neg (by decide), hzero]
    simp [roundedValue, scaledNearest_zero]
  · simp only [if_neg hv] at hold ⊢
    by_cases hm : Elroi.toFixed p v = ['-', '0']
    · rw [if_pos hm] at hold ⊢
      rw [hzero]
      have h0 : Elroi.parseFloat ['0'] = some 0 := by
        rw [parseFloat_unsigned ['0'] '0' [] rfl (by decide),
          unsignedLiteral_digits ['0'] (by decide) (by decide)]
        simp [digitsNat]
        decide
      rw [h0] at hold
      have := Option.some.inj hold
      rw [← this]
    · rw [if_neg hm]
      exact Platform.parseFloat_toFixed_exact et p v

/-! ## getYLabels on exact reals with the toFixed of the platform -/

theorem Platform.tickValue_exact (et : ℚ → JSString) (n : Nat) (maxVal minVal : ℚ) (hn : 2 ≤ n)
    (i : Nat) :
    Platform.tickValue (exactReals et) n maxVal minVal i =
      some (Elroi.tickValue n maxVal minVal i) := by
  have hn2 : (2 : ℚ) ≤ (n : ℚ) := by exact_mod_cast hn
  have hn1 : ((n : ℚ) - 1) ≠ 0 := by
    intro h0
    linarith
  simp [Platform.tickValue, hn1, exactReals, Elroi.tickValue]

theorem Platform.labelOf_exact_ok (et : ℚ → JSString) (p : Nat) (v : ℚ) (hp : p ≤ 100) :
    ∃ L : JSString, Platform.labelOf (exactReals et) p v = Outcome.ok L := by
  unfold Platform.labelOf
  by_cases hv : v = 0
  · exact ⟨['0'], by rw [if_pos hv]⟩
  · rw [if_neg hv]
    have hd : Platform.digitsAllowed (exactReals et) p = true := by
      simp [Platform.digitsAllowed, exactReals, hp]
    unfold Platform.toFixed
    rw [hd]
    by_cases he : Platform.exponentNotation (exactReals et) v = true
    · simp [he]
    · simp [he]

theorem Platform.labelOf_exact (et : ℚ → JSString) (p : Nat) (v : ℚ) (hp : p ≤ 100)
    (hv : |v| < 10 ^ 21) :
    Platform.labelOf (exactReals et) p v = Outcome.ok (Elroi.labelOf p v) := by
  have hd : Platform.digitsAllowed (exactReals et) p = true := by
    simp [Platform.digitsAllowed, exactReals, hp]
  have he : Platform.exponentNotation (exactReals et) v = false := by
    simp [Platform.exponentNotation, exactReals, hv]
  unfold Platform.labelOf Elroi.labelOf
  by_cases h0 : v = 0
  · simp [h0]
  · simp [h0, Platform.toFixed, hd, he]

theorem Platform.labelOf_exact_rangeError (et : ℚ → JSString) (p : Nat) (v : ℚ)
    (hp : 100 < p) (hv : v ≠ 0) :
    Platform.labelOf (exactReals et) p v = Outcome.rangeError := by
  have hd : Platform.digitsAllowed (exactReals et) p = false := by
    simp [Platform.digitsAllowed, exactReals, hp]
  simp [Platform.labelOf, hv, Platform.toFixed, hd]

theorem tickValue_between (n : Nat) (maxVal minVal : ℚ) (hn : 2 ≤ n) (hlt : minVal < maxVal)
    (i : Nat) (hi : i < n) :
    minVal ≤ Elroi.tickValue n maxVal minVal i ∧ Elroi.tickValue n maxVal minVal i ≤ maxVal := by
  have hn2 : (2 : ℚ) ≤ (n : ℚ) := by exact_mod_cast hn
  have hpos : (0 : ℚ) < (n : ℚ) - 1 := by linarith
  have hi2 : (i : ℚ) ≤ (n : ℚ) - 1 := by
    have : i + 1 ≤ n := hi
    have h3 : ((i + 1 : Nat) : ℚ) ≤ (n : ℚ) := by exact_mod_cast this
    push_cast at h3
    linarith
  have hfrac0 : (0 : ℚ) ≤ (i : ℚ) / ((n : ℚ) - 1) := div_nonneg (by positivity) (le_of_lt hpos)
  have hfrac1 : (i : ℚ) / ((n : ℚ) - 1) ≤ 1 := (div_le_one hpos).2 hi2
  have hd : (0 : ℚ) < maxVal - minVal := by linarith
  unfold Elroi.tickValue
  constructor
  · have := mul_nonneg hfrac0 (le_of_lt hd)
    linarith
  · have := mul_le_mul_of_nonneg_right hfrac1 (le_of_lt hd)
    linarith

theorem Platform.getYLabels_exact (et : ℚ → JSString) (n : Nat) (maxVal minVal : ℚ) (p : Nat)
    (hn : 2 ≤ n) (hlt : minVal < maxVal) (hp : p ≤ 100)
    (hmin : |minVal| < 10 ^ 21) (hmax : |maxVal| < 10 ^ 21) :
    Platform.getYLabels (exactReals et) n maxVal minVal p =
      Outcome.ok (Elroi.getYLabels n maxVal minVal p) := by
  have hlab : ∀ v : ℚ, Platform.labelOf (exactReals et) p v =
      Outcome.ok (match Platform.labelOf (exactReals et) p v with
        | Outcome.ok s => s
        | _ => []) := by
    intro v
    obtain ⟨L, hL⟩ := Platform.labelOf_exact_ok et p v hp
    rw [hL]
  rw [Platform.getYLabels, Platform.getYLabelsFrom_map (exactReals et) n maxVal minVal p
    (fun j => Elroi.tickValue n maxVal minVal j) _ hlab n 0
    (fun j _ _ => Platform.tickValue_exact et n maxVal minVal hn j),
    getYLabels_eq_map, List.range_eq_range']
  congr 1
  apply List.map_congr_left
  intro j hj
  have hjn : j < n := by
    have := List.mem_range'_1.1 hj
    omega
  obtain ⟨h1, h2⟩ := tickValue_between n maxVal minVal hn hlt j hjn
  have hv : |Elroi.tickValue n maxVal minVal j| < 10 ^ 21 := by
    rw [abs_lt] at hmin hmax ⊢
    constructor <;> linarith [hmin.1, hmin.2, hmax.1, hmax.2]
  simp only [Platform.labelOf_exact et p _ hp hv]

/-- C5 as stated fails: with two labels, `minVal = 0.5`, `maxVal = 1` and precision 101
the call `getYLabels(1, 0.5, 101)` returns no labels, since `toFixed(101)` throws a
`RangeError`. -/
theorem getYLabels_precision_counterexample :
    (2 ≤ 2) ∧ ((1 / 2 : ℚ) < 1) ∧
    Platform.getYLabels (exactReals fun _ => []) 2 1 (1 / 2) 101 = Outcome.rangeError := by
  refine ⟨le_refl 2, by norm_num, by decide!⟩

/-- C5, amended: for `minVal < maxVal` (numbers taken as exact reals, of magnitude below
`1e21`, from where `toFixed` writes exponent notation), every precision `p ≤ 100` and
`numYLabels = n ≥ 2`, `getYLabels` returns exactly `n` labels, the `i`-th being the label
of `value_i = minVal + i/(n-1)*(maxVal - minVal)`; the values are strictly increasing
with `value_0 = minVal` and `value_(n-1) = maxVal`; and the numbers `parseFloat` reads
back from the labels are non-decreasing in `i`. -/
theorem getYLabels_spec_platform (et : ℚ → JSString) (n : Nat) (maxVal minVal : ℚ) (p : Nat)
    (hn : 2 ≤ n) (hlt : minVal < maxVal) (hp : p ≤ 100)
    (hmin : |minVal| < 10 ^ 21) (hmax : |maxVal| < 10 ^ 21) :
    ∃ labels : List JSString,
      Platform.getYLabels (exactReals et) n maxVal minVal p = Outcome.ok labels ∧
      labels.length = n ∧
      (∀ i : Nat, i < n →
        ∃ L : JSString,
          Platform.labelOf (exactReals et) p
            (minVal + (i : ℚ) / ((n : ℚ) - 1) * (maxVal - minVal)) = Outcome.ok L ∧
          labels[i]? = some L) ∧
      (∀ i j : Nat, i < j → j < n →
        minVal + (i : ℚ) / ((n : ℚ) - 1) * (maxVal - minVal) <
          minVal + (j : ℚ) / ((n : ℚ) - 1) * (maxVal - minVal)) ∧
      minVal + ((0 : Nat) : ℚ) / ((n : ℚ) - 1) * (maxVal - minVal) = minVal ∧
      minVal + ((n - 1 : Nat) : ℚ) / ((n : ℚ) - 1) * (maxVal - minVal) = maxVal ∧
      (∀ i j : Nat, i ≤ j → j < n →
        ∃ a b : ℚ,
          (labels[i]?).map (Platform.parseFloat (exactReals et)) = some (JSNumber.finite a) ∧
          (labels[j]?).map (Platform.parseFloat (exactReals et)) = some (JSNumber.finite b) ∧
          a ≤ b) := by
  obtain ⟨h1, h2, h3, h4, h5, _⟩ := getYLabels_exact_spec n maxVal minVal p hn hlt
  refine ⟨Elroi.getYLabels n maxVal minVal p,
    Platform.getYLabels_exact et n maxVal minVal p hn hlt hp hmin hmax, h1, ?_, h3, h4, h5, ?_⟩
  · intro i hi
    refine ⟨_, ?_, h2 i hi⟩
    rw [← tickValue_eq]
    obtain ⟨hb1, hb2⟩ := tickValue_between n maxVal minVal hn hlt i hi
    apply Platform.labelOf_exact et p _ hp
    rw [abs_lt] at hmin hmax ⊢
    constructor <;> linarith [hmin.1, hmin.2, hmax.1, hmax.2]
  · intro i j hij hj
    refine ⟨roundedValue p (Elroi.tickValue n maxVal minVal i),
      roundedValue p (Elroi.tickValue n maxVal minVal j), ?_, ?_, ?_⟩
    · rw [getYLabels_getElem? n maxVal minVal p i (by omega)]
      simp only [Option.map_some', Platform.parseFloat_labelOf_exact]
    · rw [getYLabels_getElem? n maxVal minVal p j hj]
      simp only [Option.map_some', Platform.parseFloat_labelOf_exact]
    · apply roundedValue_mono
      rcases Nat.lt_or_eq_of_le hij with h | h
      · exact le_of_lt (tickValue_strictMono n maxVal minVal hn hlt i j h)
      · rw [h]

/-- Witness for C5 (amended): the range from 0 to 1 with five labels at precision 2. -/
theorem getYLabels_spec_platform_witness :
    ((2 ≤ 5) ∧ (0 : ℚ) < 1 ∧ 2 ≤ 100 ∧ |(0 : ℚ)| < 10 ^ 21 ∧ |(1 : ℚ)| < 10 ^ 21) ∧
    (∃ labels : List JSString,
      Platform.getYLabels (exactReals fun _ => []) 5 1 0 2 = Outcome.ok labels ∧
      labels.length = 5) ∧
    Platform.getYLabels (exactReals fun _ => []) 5 1 0 2 =
      Outcome.ok [['0'], ['0', '.', '2', '5'], ['0', '.', '5', '0'], ['0', '.', '7', '5'],
        ['1', '.', '0', '0']] :=
  ⟨⟨by decide, by norm_num, by decide, by norm_num, by norm_num⟩,
    (getYLabels_spec_platform (fun _ => []) 5 1 0 2 (by decide) (by norm_num) (by decide)
      (by norm_num) (by norm_num)).imp fun _ h => ⟨h.1, h.2.1⟩,
    by decide!⟩

/-! ## commaFormat on binary64 numbers -/

theorem pow2_1023_gt (x : ℚ) (hx : x < 10 ^ 15) : x < pow2 1023 := by
  have h : (10 : ℚ) ^ 15 < pow2 1023 := by
    rw [pow2_eq]
    norm_num
  linarith

theorem pow2_min_normal_le : pow2 (-1022) ≤ 1 / 10 ^ 14 := by
  rw [pow2_eq]
  norm_num

theorem pow2_neg53 : pow2 (-53) = 1 / 2 ^ 53 := by
  rw [pow2_eq]
  norm_num

theorem f64_decimal (p N : Nat) (hN0 : 0 < N) (hN : N < 10 ^ 15) (hp : p ≤ 14) :
    ∃ r : ℚ, f64 ((N : ℚ) / 10 ^ p) = some r ∧ 0 < r ∧ r < 10 ^ 21 ∧
      (⌊r * 10 ^ p + 1 / 2⌋).toNat = N := by
  have hpow : (0 : ℚ) < 10 ^ p := by positivity
  have hNq : (0 : ℚ) < (N : ℚ) := by exact_mod_cast hN0
  have hNlt : (N : ℚ) < 10 ^ 15 := by exact_mod_cast hN
  have hx : (0 : ℚ) < (N : ℚ) / 10 ^ p := div_pos hNq hpow
  have hpow1 : (1 : ℚ) ≤ 10 ^ p := one_le_pow₀ (by norm_num)
  have hpow14 : (10 : ℚ) ^ p ≤ 10 ^ 14 := pow_le_pow_right₀ (by norm_num) hp
  have hxle : (N : ℚ) / 10 ^ p ≤ (N : ℚ) := div_le_self (le_of_lt hNq) hpow1
  have hxge : 1 / 10 ^ 14 ≤ (N : ℚ) / 10 ^ p := by
    have h1 : (1 : ℚ) ≤ (N : ℚ) := by exact_mod_cast hN0
    have h2 : (0 : ℚ) < 10 ^ 14 := by positivity
    rw [div_le_div_iff₀ h2 hpow]
    nlinarith
  have habs : |(N : ℚ) / 10 ^ p| = (N : ℚ) / 10 ^ p := abs_of_pos hx
  obtain ⟨r, hr, hdist, hsign, _⟩ := f64_of_lt ((N : ℚ) / 10 ^ p) (ne_of_gt hx)
    (by rw [habs]; exact pow2_1023_gt _ (by linarith))
  have hrel := f64_relative ((N : ℚ) / 10 ^ p) (ne_of_gt hx)
    (by rw [habs]; exact le_trans pow2_min_normal_le hxge)
  rw [habs, pow2_neg53] at hrel
  have hd := abs_le.1 (le_trans hdist hrel)
  have hscaled : ((N : ℚ) / 10 ^ p) * 10 ^ p = (N : ℚ) := div_mul_cancel₀ _ (ne_of_gt hpow)
  have hsmall : (N : ℚ) / 10 ^ p * (1 / 2 ^ 53) * 10 ^ p < 1 / 4 := by
    have e : (N : ℚ) / 10 ^ p * (1 / 2 ^ 53) * 10 ^ p = (N : ℚ) * (1 / 2 ^ 53) := by
      field_simp
      ring
    rw [e]
    norm_num
    linarith
  have hlo : (N : ℚ) - 1 / 4 < r * 10 ^ p := by
    have := mul_le_mul_of_nonneg_right hd.1 (le_of_lt hpow)
    nlinarith
  have hhi : r * 10 ^ p < (N : ℚ) + 1 / 4 := by
    have := mul_le_mul_of_nonneg_right hd.2 (le_of_lt hpow)
    nlinarith
  have hrpos : 0 < r := by
    have h1 : (0 : ℚ) < r * 10 ^ p := by
      have : (1 : ℚ) ≤ (N : ℚ) := by exact_mod_cast hN0
      linarith
    by_contra hneg
    have : r * 10 ^ p ≤ 0 := mul_nonpos_of_nonpos_of_nonneg (le_of_not_lt hneg) (le_of_lt hpow)
    linarith
  have hrlt : r < 10 ^ 21 := by
    have h1 : r * 1 ≤ r * 10 ^ p := mul_le_mul_of_nonneg_left hpow1 (le_of_lt hrpos)
    have h2 : (10 : ℚ) ^ 15 + 1 / 4 < 10 ^ 21 := by norm_num
    linarith
  refine ⟨r, hr, hrpos, hrlt, ?_⟩
  have hfl : ⌊r * 10 ^ p + 1 / 2⌋ = (N : ℤ) := by
    rw [Int.floor_eq_iff]
    push_cast
    constructor <;> linarith
  rw [hfl]
  simp

theorem toFixed_of_scaled (p : Nat) (r : ℚ) (N : Nat) (hr : 0 < r)
    (hN : (⌊r * 10 ^ p + 1 / 2⌋).toNat = N) :
    Elroi.toFixed p r = pointed p (natStr N) ∧
    Elroi.toFixed p (-r) = '-' :: pointed p (natStr N) := by
  unfold Elroi.toFixed scaledNearest
  have h1 : ¬ r < 0 := by linarith
  have h2 : -r < 0 := by linarith
  constructor
  · rw [if_neg h1, if_neg h1, hN]
    rfl
  · rw [if_pos h2, if_pos h2, neg_neg, hN]
    rfl

theorem Platform.toFixed_binary64 (et : ℚ → JSString) (p : Nat) (x : ℚ) (hp : p ≤ 100)
    (hx : |x| < 10 ^ 21) :
    Platform.toFixed (binary64 et) p x = Outcome.ok (Elroi.toFixed p x) := by
  have hd : Platform.digitsAllowed (binary64 et) p = true := by
    simp [Platform.digitsAllowed, binary64, hp]
  have he : Platform.exponentNotation (binary64 et) x = false := by
    simp [Platform.exponentNotation, binary64, hx]
  simp [Platform.toFixed, hd, he]

theorem Platform.reparse_pointed (et : ℚ → JSString) (p : Nat) (sign I F : JSString)
    (hp : 1 ≤ p) (hsign : sign = [] ∨ sign = ['-'])
    (hI : ∀ c ∈ I, isDigit c = true) (hlead : I = ['0'] ∨ (I ≠ [] ∧ I.head? ≠ some '0'))
    (hF : ∀ c ∈ F, isDigit c = true) (hFlen : F.length = p)
    (hnz : digitsNat (I ++ F) ≠ 0) (h15 : I.length + F.length ≤ 15) :
    Platform.reparse (binary64 et) (sign ++ I ++ '.' :: F) (Precision.digits p) =
      Outcome.ok (sign ++ I ++ '.' :: F) := by
  have hIne : I ≠ [] := by
    rcases hlead with h | h
    · rw [h]
      simp
    · exact h.1
  have hIpos : 1 ≤ I.length := by
    cases I with
    | nil => exact absurd rfl hIne
    | cons c I1 => simp
  have hp14 : p ≤ 14 := by omega
  have hIF : ∀ c ∈ I ++ F, isDigit c = true := by
    intro c hc
    rcases List.mem_append.1 hc with h | h
    · exact hI c h
    · exact hF c h
  have hN15 : digitsNat (I ++ F) < 10 ^ 15 := by
    have h1 := digitsNat_lt (I ++ F) hIF
    have h2 : 10 ^ (I ++ F).length ≤ 10 ^ 15 := by
      apply Nat.pow_le_pow_right (by norm_num)
      rw [List.length_append]
      exact h15
    omega
  obtain ⟨r, hr, hrpos, hrlt, hfloor⟩ :=
    f64_decimal p (digitsNat (I ++ F)) (Nat.pos_of_ne_zero hnz) hN15 hp14
  have hlit : unsignedLiteral (I ++ '.' :: F) = some ((digitsNat (I ++ F) : ℚ) / 10 ^ p) := by
    rw [unsignedLiteral_pointed I F hI hF hIne, hFlen]
  have hpt := pointed_natStr_eq p I F hp hI hlead hF hFlen
  obtain ⟨hfix1, hfix2⟩ := toFixed_of_scaled p r _ hrpos hfloor
  have habs1 : |r| < 10 ^ 21 := by rw [abs_of_pos hrpos]; exact hrlt
  have habs2 : |(-r)| < 10 ^ 21 := by rw [abs_neg]; exact habs1
  obtain ⟨c, I1, rfl⟩ : ∃ c I1, I = c :: I1 := by
    cases I with
    | nil => exact absurd rfl hIne
    | cons c I1 => exact ⟨c, I1, rfl⟩
  have hc := hI c (List.mem_cons_self c I1)
  have hnum : Platform.unsignedNumber (binary64 et) (c :: (I1 ++ '.' :: F)) =
      JSNumber.finite r := by
    rw [Platform.unsignedNumber_digit (binary64 et) c (I1 ++ '.' :: F) _ hc hlit]
    simp only [binary64, hr]
  have hparse1 : Platform.parseFloat (binary64 et) ([] ++ (c :: I1) ++ '.' :: F) =
      JSNumber.finite r :=
    (Platform.parseFloat_digit (binary64 et) c (I1 ++ '.' :: F) hc).trans hnum
  have hparse2 : Platform.parseFloat (binary64 et) (['-'] ++ (c :: I1) ++ '.' :: F) =
      JSNumber.finite (-r) := by
    have h := Platform.parseFloat_negative (binary64 et) (c :: (I1 ++ '.' :: F))
    rw [hnum] at h
    exact h
  obtain ⟨q, rfl⟩ : ∃ q, p = q + 1 := ⟨p - 1, by omega⟩
  simp only [Platform.reparse]
  rcases hsign with rfl | rfl
  · rw [hparse1]
    simp only [Platform.numberToFixed]
    rw [Platform.toFixed_binary64 et (q + 1) r (by omega) habs1, hfix1, hpt]
    rfl
  · rw [hparse2]
    simp only [Platform.numberToFixed]
    rw [Platform.toFixed_binary64 et (q + 1) (-r) (by omega) habs2, hfix2, hpt]
    rfl

/-- C3 as stated fails: `commaFormat("12345678901234567.89", 2, ",", ".")` re-parses the text
to the nearest binary64 number, `12345678901234568`, and returns
`"12,345,678,901,234,568.00"`, in which the last digit of the integer part and both
fraction digits are altered; and with 101 fraction digits `toFixed(101)` throws a
`RangeError`, so nothing is returned. -/
theorem commaFormat_binary64_counterexample :
    Platform.commaFormat (binary64 fun _ => []) 8 "12345678901234567.89".toList
        (Precision.digits 2) [','] ['.'] =
      Outcome.ok "12,345,678,901,234,568.00".toList ∧
    Platform.commaFormat (binary64 fun _ => []) 8 "12345678901234567.89".toList
        (Precision.digits 2) [','] ['.'] ≠
      Outcome.ok (groupFromRight [','] "12345678901234567".toList ++ ['.'] ++ "89".toList) ∧
    Platform.commaFormat (binary64 fun _ => []) 8 ('1' :: '.' :: List.replicate 101 '5')
        (Precision.digits 101) [','] ['.'] = Outcome.rangeError := by
  refine ⟨by decide!, by decide!, by decide!⟩

/-- The `$` of a thousands separator is read as part of the replacement template:
with the separator `$` the template is `$1$$2`, in which `$$` stands for one `$` and the
`2` is plain text, so `commaFormat("1234.5", 1, "$", ".")` is `"1$2.5"`. -/
theorem commaFormat_dollar_template :
    Platform.commaFormat (binary64 fun _ => []) 5 ['1', '2', '3', '4', '.', '5']
        (Precision.digits 1) ['$'] ['.'] =
      Outcome.ok ['1', '$', '2', '.', '5'] := by
  decide!

/-- C3, amended: for a precision `p ≥ 1`, a non-empty thousands separator `t` without a
digit and without `$`, every decimal separator `d`, and an input `[-]I.F` where `I`
is a digit string without superfluous leading zeros, `F` has exactly `p` digits, `I`
and `F` together have at most 15 digits and the number is not zero, `commaFormat` on
binary64 numbers returns, for every fuel above the length of `I`, the sign, the
thousands grouping of `I`, the decimal separator (a space when `d` is empty) and `F`
unchanged. -/
theorem commaFormat_fraction_platform (et : ℚ → JSString) (t d sign I F : JSString)
    (p fuel : Nat)
    (ht0 : t ≠ []) (htd : ∀ c ∈ t, isDigit c = false) (hts : ∀ c ∈ t, c ≠ '$')
    (hsign : sign = [] ∨ sign = ['-']) (hp : 1 ≤ p)
    (hI : ∀ c ∈ I, isDigit c = true) (hlead : I = ['0'] ∨ (I ≠ [] ∧ I.head? ≠ some '0'))
    (hF : ∀ c ∈ F, isDigit c = true) (hFlen : F.length = p)
    (hnz : digitsNat (I ++ F) ≠ 0) (h15 : I.length + F.length ≤ 15)
    (hfuel : I.length < fuel) :
    Platform.commaFormat (binary64 et) fuel (sign ++ I ++ '.' :: F) (Precision.digits p) t d =
      Outcome.ok (sign ++ groupFromRight t I ++ (if d = [] then [' '] else d) ++ F) := by
  have hpre : ∀ c ∈ sign, isDigit c = false := by
    intro c hc
    rcases hsign with rfl | rfl
    · simp at hc
    · simp at hc
      rw [hc]
      decide
  have hnodot : ∀ c ∈ sign ++ I, c ≠ '.' := by
    intro c hc
    rcases List.mem_append.1 hc with h | h
    · rcases hsign with rfl | rfl
      · simp at h
      · simp at h
        rw [h]
        decide
    · exact isDigit_ne_dot c (hI c h)
  have hFnodot : ∀ c ∈ F, c ≠ '.' := fun c hc => isDigit_ne_dot c (hF c hc)
  have hne0 : sign ++ I ++ '.' :: F ≠ ['0'] := by
    intro h
    have hmem : '.' ∈ sign ++ I ++ '.' :: F := by simp
    rw [h] at hmem
    simp at hmem
  have hrep := Platform.reparse_pointed et p sign I F hp hsign hI hlead hF hFlen hnz h15
  have hrun := groupLoop_run t ht0 htd hts sign hpre I.length I [] fuel rfl hI (by simp) hfuel
  simp only [sepGroups, List.append_nil] at hrun
  have hsplit : split '.' (sign ++ I ++ '.' :: F) = [sign ++ I, F] := by
    rw [split_at_sep '.' (sign ++ I) F hnodot, split_no_sep '.' F hFnodot]
  obtain ⟨c, F1, rfl⟩ : ∃ c F1, F = c :: F1 := by
    cases F with
    | nil =>
      simp at hFlen
      omega
    | cons c F1 => exact ⟨c, F1, rfl⟩
  simp only [Platform.commaFormat, if_neg ht0, if_neg hne0, hrep, hsplit]
  simp [hrun, groupFromRight]

/-- Witness for C3 (amended): the example `"1234567.89"` with precision 2, thousands
separator space and decimal separator comma. -/
theorem commaFormat_fraction_platform_witness :
    Platform.commaFormat (binary64 fun _ => []) 8
        ['1', '2', '3', '4', '5', '6', '7', '.', '8', '9'] (Precision.digits 2) [' '] [','] =
      Outcome.ok ['1', ' ', '2', '3', '4', ' ', '5', '6', '7', ',', '8', '9'] :=
  (commaFormat_fraction_platform (fun _ => []) [' '] [','] []
    ['1', '2', '3', '4', '5', '6', '7'] ['8', '9'] 2 8
    (by decide) (by decide) (by decide) (Or.inl rfl) (by decide) (by decide)
    (Or.inr ⟨by decide, by decide⟩) (by decide) (by decide) (by decide) (by decide)
    (by decide)).trans (by decide)

/-! ## The values that round to zero, on binary64 numbers -/

/-- The text `"-0.0"` at precision 0 on every number system: the text is not parsed, so
the result is the one of the exact embedding. -/
theorem Platform.negative_zero_text_unparsed (N : Numbers) (t d : JSString) (fuel : Nat) :
    Platform.commaFormat N (fuel + 1) ['-', '0', '.', '0'] (Precision.digits 0) t d =
      Outcome.ok (['-', '0'] ++ (if d = [] then [' '] else d) ++ ['0']) := by
  simp [Platform.commaFormat, Platform.reparse, split, groupLoop, rgxExec, matchAt, backtrack,
    isDigit, digitChars]

/-- The binary64 number nearest to `0.001`, and the labels of `getYLabels` and of
`commaFormat` for it on binary64 numbers: `"0.00"` and `"-0.00"` are produced as labels, and
both are shown as `"0.00"`. -/
theorem Platform.labels_near_zero :
    f64 (1 / 1000) = some (1152921504606847 / 1152921504606846976) ∧
    Platform.getYLabels (binary64 fun _ => []) 2 1 (1152921504606847 / 1152921504606846976) 2 =
      Outcome.ok [['0', '.', '0', '0'], ['1', '.', '0', '0']] ∧
    Platform.getYLabels (binary64 fun _ => []) 2 1
        (-(1152921504606847 / 1152921504606846976)) 2 =
      Outcome.ok [['-', '0', '.', '0', '0'], ['1', '.', '0', '0']] ∧
    Platform.escalate (binary64 fun _ => []) 2 (1152921504606847 / 1152921504606846976)
        (-(1152921504606847 / 1152921504606846976)) 1 2 =
      Outcome.ok (2, [['-', '0', '.', '0', '0'], ['0', '.', '0', '0']]) ∧
    Platform.commaFormat (binary64 fun _ => []) 1 ['-', '0', '.', '0', '0'] (Precision.digits 2)
        [','] ['.'] = Outcome.ok ['0', '.', '0', '0'] ∧
    Platform.commaFormat (binary64 fun _ => []) 1 ['0', '.', '0', '0'] (Precision.digits 2)
        [','] ['.'] = Outcome.ok ['0', '.', '0', '0'] := by
  refine ⟨by decide!, by decide!, by decide!, by decide!, by decide!, by decide!⟩

end Elroi
